import Mathlib

/-!
# Verification of the meld-canvas-html diff engine

Shallow embedding of `meld-port.py` (a two-pane text diff viewer).  Texts are
modelled as `List Nat` of Unicode code points; lines as `List Nat`; a list of
lines as `List (List Nat)`.  The sequence aligner is Python's
`difflib.SequenceMatcher(None, a, b)` (CPython semantics: `isjunk = None`, so
the junk set is empty, and `autojunk = True`, so elements of `b` occurring more
than `len(b) // 100 + 1` times are dropped from the index `b2j` when
`len(b) >= 200`).  All machine integers are `Nat` (Python's are unbounded and
all values here are non-negative).
-/

set_option maxHeartbeats 1000000
set_option linter.unusedSectionVars false

/-- Code points of a string literal, the `List Nat` representation of texts. -/
def codes (s : String) : List Nat := s.data.map Char.toNat

/-- The four difflib opcode tags (`'equal'`, `'replace'`, `'delete'`, `'insert'`). -/
inductive Tag where
  | equal
  | replace
  | delete
  | insert
deriving DecidableEq

/-- `DiffChunk(tag, start_a, end_a, start_b, end_b)` from `meld-port.py`; the same
shape also represents one raw opcode tuple `(tag, i1, i2, j1, j2)` of difflib. -/
structure DiffChunk where
  tag : Tag
  start_a : Nat
  end_a : Nat
  start_b : Nat
  end_b : Nat
deriving DecidableEq

/-- difflib's `Match(a, b, size)` named tuple: a matching block. -/
structure MatchBlock where
  a : Nat
  b : Nat
  size : Nat
deriving DecidableEq

/-- Python line-break code points recognised by `str.splitlines`:
`\n \v \f \r \x1c \x1d \x1e \x85    `. -/
def lineBreaks : List Nat := [10, 11, 12, 13, 28, 29, 30, 133, 8232, 8233]

/-- Worker for `str.splitlines`: `acc` holds the current line reversed.
`\r\n` counts as a single break; a trailing fragment without a terminator
forms the final line; a text ending in a terminator adds no empty line. -/
def splitlinesAux : List Nat → List Nat → List (List Nat)
  | [], acc => if acc.isEmpty then [] else [acc.reverse]
  | 13 :: 10 :: rest, acc => acc.reverse :: splitlinesAux rest []
  | c :: rest, acc =>
    if c ∈ lineBreaks then acc.reverse :: splitlinesAux rest []
    else splitlinesAux rest (c :: acc)

/-- Python `text.splitlines()`. -/
def splitlines (t : List Nat) : List (List Nat) := splitlinesAux t []

section Matcher

variable {α : Type} [DecidableEq α] [Inhabited α]

/-- All indices `j` of `b` with `b[j] == x`, ascending: the entry `b2j[x]`
built by `SequenceMatcher.__chain_b` before the autojunk purge. -/
def occurrences (b : List α) (x : α) : List Nat :=
  (List.range b.length).filter (fun j => decide (b.getD j default = x))

/-- The autojunk test of `__chain_b`: with `n = len(b) >= 200`, an element is
"popular" (and purged from `b2j`) when it occurs more than `n // 100 + 1` times.
`isjunk` is `None` in `meld-port.py`, so the junk purge is empty. -/
def isPopular (b : List α) (x : α) : Bool :=
  decide (200 ≤ b.length) && decide (b.length / 100 + 1 < (occurrences b x).length)

/-- `b2j.get(x, [])` after the autojunk purge. -/
def b2jIdx (b : List α) (x : α) : List Nat :=
  if isPopular b x then [] else occurrences b x

/-- The running best of `find_longest_match`: `besti, bestj, bestsize`. -/
structure FLMState where
  besti : Nat
  bestj : Nat
  bestsize : Nat
deriving DecidableEq

/-- Inner loop of `find_longest_match` over `j in b2j.get(a[i], [])` (already
filtered to `blo <= j < bhi`; CPython `continue`s below `blo` and `break`s at
`bhi`, which on the ascending index list is the same filter).  `j2len` is the
previous row's run-length map (`j2len.get(j-1, 0)` is `0` at `j = 0`, where
CPython looks up key `-1`), `newj2len` the row being built. -/
def flmInner (j2len : Nat → Nat) (i : Nat) :
    List Nat → (Nat → Nat) → FLMState → ((Nat → Nat) × FLMState)
  | [], newj2len, st => (newj2len, st)
  | j :: js, newj2len, st =>
    let k := (if j = 0 then 0 else j2len (j - 1)) + 1
    let st' := if st.bestsize < k then ⟨i + 1 - k, j + 1 - k, k⟩ else st
    flmInner j2len i js (fun x => if x = j then k else newj2len x) st'

/-- The indices visited in row `i`: `b2j.get(a[i], [])` restricted to
`blo <= j < bhi` (the `continue`/`break` of the inner loop on the ascending
index list). -/
def rowJs (a b : List α) (blo bhi : Nat) (i : Nat) : List Nat :=
  (b2jIdx b (a.getD i default)).filter
    (fun j => decide (blo ≤ j) && decide (j < bhi))

/-- Outer loop of `find_longest_match` over `i in range(alo, ahi)`. -/
def flmLoop (a b : List α) (blo bhi : Nat) :
    List Nat → (Nat → Nat) → FLMState → FLMState
  | [], _, st => st
  | i :: is, j2len, st =>
    let p := flmInner j2len i (rowJs a b blo bhi i) (fun _ => 0) st
    flmLoop a b blo bhi is p.1 p.2

/-- The backward extension loop of `find_longest_match`
(`while besti > alo and bestj > blo and not isbjunk(b[bestj-1]) and
a[besti-1] == b[bestj-1]`), with the junk set empty since `isjunk` is `None`;
the second (junk-only) backward loop never fires.  Structural on `besti`. -/
def extendBack (a b : List α) (alo blo : Nat) :
    Nat → Nat → Nat → Nat × Nat × Nat
  | 0, bestj, bestsize => (0, bestj, bestsize)
  | besti + 1, bestj, bestsize =>
    if alo ≤ besti ∧ blo < bestj ∧ a.getD besti default = b.getD (bestj - 1) default then
      extendBack a b alo blo besti (bestj - 1) (bestsize + 1)
    else (besti + 1, bestj, bestsize)

/-- The forward extension loop (`while besti+bestsize < ahi and
bestj+bestsize < bhi and not isbjunk(...) and a[...] == b[...]`), junk empty.
`rem` is `ahi - (besti + bestsize)`, so `rem > 0` is the first conjunct;
the junk-only forward loop never fires. -/
def extendFwd (a b : List α) (bhi besti bestj : Nat) : Nat → Nat → Nat
  | 0, bestsize => bestsize
  | rem + 1, bestsize =>
    if bestj + bestsize < bhi ∧
        a.getD (besti + bestsize) default = b.getD (bestj + bestsize) default then
      extendFwd a b bhi besti bestj rem (bestsize + 1)
    else bestsize

/-- `SequenceMatcher.find_longest_match(alo, ahi, blo, bhi)`: the dynamic-
programming scan, then the (non-junk) backward and forward extensions. -/
def find_longest_match (a b : List α) (alo ahi blo bhi : Nat) : MatchBlock :=
  let st := flmLoop a b blo bhi (List.range' alo (ahi - alo)) (fun _ => 0)
    ⟨alo, blo, 0⟩
  let e := extendBack a b alo blo st.besti st.bestj st.bestsize
  let k2 := extendFwd a b bhi e.1 e.2.1 (ahi - (e.1 + e.2.2)) e.2.2
  ⟨e.1, e.2.1, k2⟩

/-- The recursion of `get_matching_blocks`, fuelled.  CPython keeps a LIFO
queue of ranges and sorts the collected matches at the end; since each range is
processed independently, the sorted result equals this in-order recursion
(blocks found strictly before the anchoring match precede it, blocks strictly
after follow it, so the concatenation is already sorted by `(a, b)`). -/
def matchingBlocksF (a b : List α) : Nat → Nat → Nat → Nat → Nat → List MatchBlock
  | 0, _, _, _, _ => []
  | fuel + 1, alo, ahi, blo, bhi =>
    let m := find_longest_match a b alo ahi blo bhi
    if m.size = 0 then []
    else
      (if alo < m.a ∧ blo < m.b then matchingBlocksF a b fuel alo m.a blo m.b else []) ++
      m :: (if m.a + m.size < ahi ∧ m.b + m.size < bhi then
        matchingBlocksF a b fuel (m.a + m.size) ahi (m.b + m.size) bhi else [])

/-- The sorted list of raw matching blocks of the whole inputs (before the
adjacency merge).  The recursion depth is bounded by `a.length + 1` (each
nested range strictly shrinks in its `a` extent), so this fuel is exact. -/
def matchingBlocksRaw (a b : List α) : List MatchBlock :=
  matchingBlocksF a b (a.length + 1) 0 a.length 0 b.length

/-- The adjacency merge of `get_matching_blocks`: `i1, j1, k1` start at
`0, 0, 0`; a block adjacent to the accumulator on both sides is absorbed,
otherwise the accumulator is emitted when non-trivial. -/
def mergeAdjacent : List MatchBlock → MatchBlock → List MatchBlock
  | [], acc => if acc.size ≠ 0 then [acc] else []
  | blk :: rest, acc =>
    if acc.a + acc.size = blk.a ∧ acc.b + acc.size = blk.b then
      mergeAdjacent rest ⟨acc.a, acc.b, acc.size + blk.size⟩
    else if acc.size ≠ 0 then acc :: mergeAdjacent rest blk
    else mergeAdjacent rest blk

/-- `SequenceMatcher.get_matching_blocks()`: merged blocks plus the sentinel
`(la, lb, 0)`. -/
def get_matching_blocks (a b : List α) : List MatchBlock :=
  mergeAdjacent (matchingBlocksRaw a b) ⟨0, 0, 0⟩ ++ [⟨a.length, b.length, 0⟩]

/-- The cursor walk of `get_opcodes()`: emit the gap `(i..ai, j..bj)` tagged by
which sides are non-empty, then the `equal` block when `size` is non-zero. -/
def opcodesGo : List MatchBlock → Nat → Nat → List DiffChunk
  | [], _, _ => []
  | m :: rest, i, j =>
    (if i < m.a ∧ j < m.b then [⟨Tag.replace, i, m.a, j, m.b⟩]
     else if i < m.a then [⟨Tag.delete, i, m.a, j, m.b⟩]
     else if j < m.b then [⟨Tag.insert, i, m.a, j, m.b⟩]
     else []) ++
    (if m.size ≠ 0 then [⟨Tag.equal, m.a, m.a + m.size, m.b, m.b + m.size⟩] else []) ++
    opcodesGo rest (m.a + m.size) (m.b + m.size)

/-- `SequenceMatcher.get_opcodes()`. -/
def get_opcodes (a b : List α) : List DiffChunk := opcodesGo (get_matching_blocks a b) 0 0

end Matcher

/-- The chunk-collecting loop of `compute_diff`: keep only non-`equal` opcodes
(each kept tuple is re-packed as a `DiffChunk`, which here is the identity). -/
def chunksFilterGo : List DiffChunk → List DiffChunk
  | [] => []
  | c :: rest =>
    if c.tag ≠ Tag.equal then c :: chunksFilterGo rest else chunksFilterGo rest

/-- `compute_diff(text_a, text_b)` from `meld-port.py`: split both texts into
lines, align, and keep the non-`equal` opcodes. -/
def compute_diff (text_a text_b : List Nat) : List DiffChunk :=
  chunksFilterGo (get_opcodes (splitlines text_a) (splitlines text_b))

/-- `compute_inline_diff(text1, text2)`: the raw character-level opcodes. -/
def compute_inline_diff (text1 text2 : List Nat) : List DiffChunk :=
  get_opcodes text1 text2

/-- `s.replace(chr(c), repl)` for a single-character pattern. -/
def replaceChar (c : Nat) (repl : List Nat) : List Nat → List Nat
  | [] => []
  | x :: rest => (if x = c then repl else [x]) ++ replaceChar c repl rest

/-- Python `html.escape(s)` (with the default `quote=True`): the five
sequential single-character replacements `& < > " '`. -/
def htmlEscape (s : List Nat) : List Nat :=
  replaceChar 39 (codes "&#x27;")
    (replaceChar 34 (codes "&quot;")
      (replaceChar 62 (codes "&gt;")
        (replaceChar 60 (codes "&lt;")
          (replaceChar 38 (codes "&amp;") s))))

/-- The `"&nbsp;"` placeholder for an empty line. -/
def nbsp : List Nat := codes "&nbsp;"

/-- `html.escape(line) if line else "&nbsp;"`. -/
def escapeOrNbsp (line : List Nat) : List Nat :=
  if line = [] then nbsp else htmlEscape line

/-- Python `line[i1:i2]` (slices clamp out-of-range bounds, as do
`drop`/`take`). -/
def pySlice (l : List Nat) (i1 i2 : Nat) : List Nat := (l.drop i1).take (i2 - i1)

/-- `INLINE_HIGHLIGHT_LIMIT = 20 * 1024`. -/
def INLINE_HIGHLIGHT_LIMIT : Nat := 20 * 1024

/-- The `result` list of `format_line_with_inline_diff`: one rendered piece per
`equal` / `replace` / `delete` opcode (the span markup is appended around the
escaped pySlice), nothing for `insert`. -/
def renderOps (line : List Nat) : List DiffChunk → List (List Nat)
  | [] => []
  | c :: rest =>
    match c.tag with
    | Tag.equal => htmlEscape (pySlice line c.start_a c.end_a) :: renderOps line rest
    | Tag.replace =>
      (codes "<span class=\"inline-diff\">" ++ htmlEscape (pySlice line c.start_a c.end_a) ++
        codes "</span>") :: renderOps line rest
    | Tag.delete =>
      (codes "<span class=\"inline-diff\">" ++ htmlEscape (pySlice line c.start_a c.end_a) ++
        codes "</span>") :: renderOps line rest
    | Tag.insert => renderOps line rest

/-- `format_line_with_inline_diff(line, other_line, is_changed)`. -/
def format_line_with_inline_diff (line other_line : List Nat) (is_changed : Bool) :
    List Nat :=
  if is_changed = false ∨ line = [] ∨ other_line = [] then escapeOrNbsp line
  else if INLINE_HIGHLIGHT_LIMIT < line.length + other_line.length then escapeOrNbsp line
  else
    let result := renderOps line (compute_inline_diff line other_line)
    if result = [] then nbsp else result.flatten

/-- `LINE_LENGTH_LIMIT = 8 * 1024`. -/
def LINE_LENGTH_LIMIT : Nat := 8 * 1024

/-- The observable outcome of `check_file_limits`: `ok` is the `True` return;
`binary` and `lineTooLong i n` are the two `False` returns, carrying the
diagnostic printed on each path (the 1-based line number `i` and measured
length `n` of the first over-long line). -/
inductive GuardResult where
  | ok
  | binary
  | lineTooLong (lineNumber length : Nat)
deriving DecidableEq

/-- The `for i, line in enumerate(lines, 1)` scan: first line longer than the
limit, with its 1-based number and length. -/
def firstLongLine : List (List Nat) → Nat → Option (Nat × Nat)
  | [], _ => none
  | l :: rest, i =>
    if LINE_LENGTH_LIMIT < l.length then some (i, l.length) else firstLongLine rest (i + 1)

/-- `check_file_limits(text, filename)` (the filename only feeds the printed
diagnostics). -/
def check_file_limits (text : List Nat) : GuardResult :=
  if 0 ∈ text then GuardResult.binary
  else
    match firstLongLine (splitlines text) 1 with
    | some p => GuardResult.lineTooLong p.1 p.2
    | none => GuardResult.ok

/-- Containment test of the chunk-search loops in `format_lines`: on the left
pane `chunk.start_a <= i < chunk.end_a`, on the right `start_b <= i < end_b`. -/
def chunkContains (isLeft : Bool) (i : Nat) (c : DiffChunk) : Bool :=
  if isLeft then decide (c.start_a ≤ i) && decide (i < c.end_a)
  else decide (c.start_b ≤ i) && decide (i < c.end_b)

/-- The first chunk-scan of `format_lines` (sets `chunk_class` / `chunk_tag`
from the first chunk containing line `i`). -/
def findContaining (chunks : List DiffChunk) (isLeft : Bool) (i : Nat) :
    Option DiffChunk :=
  match chunks with
  | [] => none
  | c :: rest => if chunkContains isLeft i c then some c else findContaining rest isLeft i

/-- The second chunk-scan (the `for ... else` loop run when `chunk_tag` is
`replace`): first chunk containing `i` whose tag is `replace`. -/
def findContainingReplace (chunks : List DiffChunk) (isLeft : Bool) (i : Nat) :
    Option DiffChunk :=
  match chunks with
  | [] => none
  | c :: rest =>
    if chunkContains isLeft i c && decide (c.tag = Tag.replace) then some c
    else findContainingReplace rest isLeft i

/-- `f"chunk-{tag}"` suffixes. -/
def tagCodes : Tag → List Nat
  | Tag.equal => codes "equal"
  | Tag.replace => codes "replace"
  | Tag.delete => codes "delete"
  | Tag.insert => codes "insert"

/-- `str(n)` as code points. -/
def natCodes (n : Nat) : List Nat := (Nat.toDigits 10 n).map Char.toNat

/-- The paired index used for replace chunks:
`chunk.start_b + (i - chunk.start_a)` on the left pane and
`chunk.start_a + (i - chunk.start_b)` on the right. -/
def pairedIdx (isLeft : Bool) (i : Nat) (c : DiffChunk) : Nat :=
  if isLeft then c.start_b + (i - c.start_a) else c.start_a + (i - c.start_b)

/-- The `formatted_line` content computed for line `i` of one pane. -/
def lineContent (other_lines : List (List Nat)) (chunks : List DiffChunk)
    (isLeft : Bool) (i : Nat) (line : List Nat) : List Nat :=
  match findContaining chunks isLeft i with
  | some c =>
    if c.tag = Tag.replace then
      match findContainingReplace chunks isLeft i with
      | some c' =>
        if pairedIdx isLeft i c' < other_lines.length then
          format_line_with_inline_diff line (other_lines.getD (pairedIdx isLeft i c') [])
            true
        else escapeOrNbsp line
      | none => escapeOrNbsp line
    else escapeOrNbsp line
  | none => escapeOrNbsp line

/-- The `chunk_class` string: `f"chunk-{tag}"` for the first containing chunk,
empty otherwise. -/
def chunkClassOf (chunks : List DiffChunk) (isLeft : Bool) (i : Nat) : List Nat :=
  match findContaining chunks isLeft i with
  | some c => codes "chunk-" ++ tagCodes c.tag
  | none => []

/-- One rendered `<div class="line ...">` record of `format_lines` (note the
space after `line` is present even with an empty chunk class, as in the
f-string). -/
def lineRecord (cls : List Nat) (i : Nat) (content : List Nat) : List Nat :=
  codes "<div class=\"line " ++ cls ++ codes "\" data-line=\"" ++ natCodes i ++
    codes "\">" ++ codes "<span class=\"line-num\">" ++ natCodes (i + 1) ++
    codes "</span>" ++ codes "<span class=\"line-content\">" ++ content ++
    codes "</span></div>"

/-- The record built for index `i`, line `line`. -/
def renderLine (other_lines : List (List Nat)) (chunks : List DiffChunk)
    (isLeft : Bool) (i : Nat) (line : List Nat) : List Nat :=
  lineRecord (chunkClassOf chunks isLeft i) i (lineContent other_lines chunks isLeft i line)

/-- The `for i, line in enumerate(lines)` loop of `format_lines`, producing the
`html_lines` list. -/
def formatLinesGo (other_lines : List (List Nat)) (chunks : List DiffChunk)
    (isLeft : Bool) : Nat → List (List Nat) → List (List Nat)
  | _, [] => []
  | i, line :: rest =>
    renderLine other_lines chunks isLeft i line ::
      formatLinesGo other_lines chunks isLeft (i + 1) rest

/-- `format_lines(lines, other_lines, chunks, is_left)`: the records joined
with `"\n"`. -/
def format_lines (lines other_lines : List (List Nat)) (chunks : List DiffChunk)
    (isLeft : Bool) : List Nat :=
  List.intercalate [10] (formatLinesGo other_lines chunks isLeft 0 lines)

/-! ## Reference definitions written from the specification

`runLenF`, `specFLB`, `specMBF` formalise §4.2 of the spec verbatim: the
Ratcliff/Obershelp recursion "repeatedly find the longest common contiguous
block between the remaining unmatched region of A and of B, recurse on the
regions strictly before and strictly after that block, and concatenate results
in order", with the tie-break "prefer the one with the smallest start index in
A, and among those the smallest start index in B".  They are the comparison
point for the refinement claim about the Sequence Aligner. -/

section SpecSide

variable {α : Type} [DecidableEq α] [Inhabited α]

/-- Length of the common run starting at `(i, j)` and staying inside the
window; `rem` is `ahi - i`, so the run also stops at `ahi`. -/
def runLenF (a b : List α) (bhi : Nat) : Nat → Nat → Nat → Nat
  | 0, _, _ => 0
  | rem + 1, i, j =>
    if j < bhi ∧ a.getD i default = b.getD j default then
      runLenF a b bhi rem (i + 1) (j + 1) + 1
    else 0

/-- Length of the longest common block starting at `(i, j)` inside the window
`[i, ahi) × [j, bhi)`. -/
def runLen (a b : List α) (ahi bhi i j : Nat) : Nat := runLenF a b bhi (ahi - i) i j

/-- All window positions in lexicographic order (`i` outer, `j` inner). -/
def rectPositions (alo ahi blo bhi : Nat) : List (Nat × Nat) :=
  (List.range' alo (ahi - alo)).flatMap
    (fun i => (List.range' blo (bhi - blo)).map (fun j => (i, j)))

/-- The spec's longest-block search with its tie-break: scanning start
positions in lexicographic order and keeping the first strict improvement
selects, among all blocks of maximal length, the one with the smallest start
in A and then the smallest start in B. -/
def specFLB (a b : List α) (alo ahi blo bhi : Nat) : MatchBlock :=
  (rectPositions alo ahi blo bhi).foldl
    (fun st p =>
      let k := runLen a b ahi bhi p.1 p.2
      if st.size < k then ⟨p.1, p.2, k⟩ else st)
    ⟨alo, blo, 0⟩

/-- The spec's recursion: longest block, recurse strictly before and strictly
after, concatenate in order (fuelled; an empty remaining region yields no
block). -/
def specMBF (a b : List α) : Nat → Nat → Nat → Nat → Nat → List MatchBlock
  | 0, _, _, _, _ => []
  | fuel + 1, alo, ahi, blo, bhi =>
    let m := specFLB a b alo ahi blo bhi
    if m.size = 0 then []
    else
      specMBF a b fuel alo m.a blo m.b ++
        m :: specMBF a b fuel (m.a + m.size) ahi (m.b + m.size) bhi

/-- The reference Ratcliff/Obershelp matching blocks of two whole sequences. -/
def specMatchingBlocks (a b : List α) : List MatchBlock :=
  specMBF a b (a.length + 1) 0 a.length 0 b.length

end SpecSide

/-- The per-operation rendering described by the spec for the Inline
Highlighter: `equal` runs become escaped literal text, `replace`/`delete` runs
the same escaped text wrapped in the changed marker (escaping applied before
wrapping, the marker itself unescaped), `insert` runs contribute nothing. -/
def inlineRender (line : List Nat) (c : DiffChunk) : List Nat :=
  match c.tag with
  | Tag.equal => htmlEscape (pySlice line c.start_a c.end_a)
  | Tag.replace =>
    codes "<span class=\"inline-diff\">" ++ htmlEscape (pySlice line c.start_a c.end_a) ++
      codes "</span>"
  | Tag.delete =>
    codes "<span class=\"inline-diff\">" ++ htmlEscape (pySlice line c.start_a c.end_a) ++
      codes "</span>"
  | Tag.insert => []

/-! ## Partition predicates -/

/-- The operations' ranges, walked left to right from `(ca, cb)`, are
contiguous (each starts where the previous ended), weakly forward, and end
exactly at `(la, lb)`: together this is "contiguous, non-overlapping, strictly
increasing, union covering" for both sides at once. -/
def chainCovers (la lb : Nat) : Nat → Nat → List DiffChunk → Prop
  | ca, cb, [] => ca = la ∧ cb = lb
  | ca, cb, c :: rest =>
    c.start_a = ca ∧ c.start_b = cb ∧ ca ≤ c.end_a ∧ cb ≤ c.end_b ∧
      chainCovers la lb c.end_a c.end_b rest

/-- Per-tag side conditions: `equal` ranges have equal length, are non-empty
and cover pairwise identical elements; `insert` has an empty A-range, `delete`
an empty B-range, `replace` two non-empty ranges. -/
def TagOk {α : Type} [Inhabited α] (a b : List α) (c : DiffChunk) : Prop :=
  match c.tag with
  | Tag.equal =>
    c.end_a - c.start_a = c.end_b - c.start_b ∧ c.start_a < c.end_a ∧
      ∀ t, c.start_a + t < c.end_a →
        a.getD (c.start_a + t) default = b.getD (c.start_b + t) default
  | Tag.insert => c.start_a = c.end_a ∧ c.start_b < c.end_b
  | Tag.delete => c.start_b = c.end_b ∧ c.start_a < c.end_a
  | Tag.replace => c.start_a < c.end_a ∧ c.start_b < c.end_b

/-- The full partition invariant of one alignment run. -/
def OpsPartition {α : Type} [Inhabited α] (a b : List α) (ops : List DiffChunk) : Prop :=
  chainCovers a.length b.length 0 0 ops ∧ ∀ c ∈ ops, TagOk a b c

/-- Matching blocks chained from cursor `(ca, cb)`: ordered, non-trivial,
within `(ha, hb)`, and each a true common block. -/
def MBChain {α : Type} [Inhabited α] (a b : List α) :
    Nat → Nat → Nat → Nat → List MatchBlock → Prop
  | ca, cb, ha, hb, [] => ca ≤ ha ∧ cb ≤ hb
  | ca, cb, ha, hb, m :: rest =>
    ca ≤ m.a ∧ cb ≤ m.b ∧ 0 < m.size ∧
      (∀ t, t < m.size → a.getD (m.a + t) default = b.getD (m.b + t) default) ∧
      MBChain a b (m.a + m.size) (m.b + m.size) ha hb rest

/-- Like `MBChain` but ending exactly at `(ha, hb)` and allowing trivial
blocks (the final sentinel has size 0). -/
def MBChainTo {α : Type} [Inhabited α] (a b : List α) :
    Nat → Nat → Nat → Nat → List MatchBlock → Prop
  | ca, cb, ha, hb, [] => ca = ha ∧ cb = hb
  | ca, cb, ha, hb, m :: rest =>
    ca ≤ m.a ∧ cb ≤ m.b ∧
      (∀ t, t < m.size → a.getD (m.a + t) default = b.getD (m.b + t) default) ∧
      MBChainTo a b (m.a + m.size) (m.b + m.size) ha hb rest

/-- `startsWithSeq pat s`: `s` begins with `pat`. -/
def startsWithSeq : List Nat → List Nat → Bool
  | [], _ => true
  | _ :: _, [] => false
  | p :: ps, x :: xs => decide (p = x) && startsWithSeq ps xs

/-- `hasSub pat s`: `pat` occurs as a contiguous substring of `s`. -/
def hasSub (pat : List Nat) : List Nat → Bool
  | [] => startsWithSeq pat []
  | x :: rest => startsWithSeq pat (x :: rest) || hasSub pat rest

/-! ## Proof apparatus for the scan of `find_longest_match`

`visitedB i j` says the inner loop visits column `j` in row `i`; `chainLen`
is the value the row map `j2len` holds at `j` after row `i` (the length of the
chained visited matches ending at `(i, j)`, cut at row `alo` and at column 0
where CPython's lookup of key `-1` yields 0); `scanPos` lists all visited
positions in scan order. -/

section ScanApparatus

variable {α : Type} [DecidableEq α] [Inhabited α]

def visitedB (a b : List α) (blo bhi i j : Nat) : Bool :=
  decide (blo ≤ j) && decide (j < bhi) && decide (j ∈ b2jIdx b (a.getD i default))

def chainLen (a b : List α) (alo blo bhi : Nat) : Nat → Nat → Nat
  | 0, j => if visitedB a b blo bhi 0 j then 1 else 0
  | i + 1, j =>
    if visitedB a b blo bhi (i + 1) j then
      (if i + 1 = alo ∨ j = 0 then 0 else chainLen a b alo blo bhi i (j - 1)) + 1
    else 0

/-- The contents of `j2len` seen by row `i` (all zero in the first row). -/
def prevRow (a b : List α) (alo blo bhi : Nat) (i : Nat) : Nat → Nat :=
  fun j => if i = alo then 0 else chainLen a b alo blo bhi (i - 1) j

/-- All visited positions of the scan, in scan (lexicographic) order. -/
def scanPos (a b : List α) (alo ahi blo bhi : Nat) : List (Nat × Nat) :=
  (List.range' alo (ahi - alo)).flatMap
    (fun i => (rowJs a b blo bhi i).map (fun j => (i, j)))

/-- `chainLen` as a function on positions. -/
def chainF (a b : List α) (alo blo bhi : Nat) : Nat × Nat → Nat :=
  fun p => chainLen a b alo blo bhi p.1 p.2

/-- How the scan stores a best end position `p` of size `k`. -/
def mkEnd : Nat × Nat → Nat → FLMState :=
  fun p k => ⟨p.1 + 1 - k, p.2 + 1 - k, k⟩

/-- One best-candidate update of the scan. -/
def bestUpd (f : Nat × Nat → Nat) (mk : Nat × Nat → Nat → FLMState)
    (st : FLMState) (p : Nat × Nat) : FLMState :=
  if st.bestsize < f p then mk p (f p) else st

end ScanApparatus

/-- Strict lexicographic order on positions (row first, then column): the scan
order of `find_longest_match`. -/
def lexLt (p q : Nat × Nat) : Prop := p.1 < q.1 ∨ (p.1 = q.1 ∧ p.2 < q.2)

/-! ## Escaping lemmas -/

theorem mem_replaceChar {y c : Nat} {repl : List Nat} :
    ∀ s : List Nat, y ∈ replaceChar c repl s → y ∈ repl ∨ y ∈ s := by
  intro s
  induction s with
  | nil => intro h; exact absurd h (by simp [replaceChar])
  | cons x rest ih =>
    intro h
    rw [replaceChar] at h
    rcases List.mem_append.mp h with h1 | h2
    · by_cases hx : x = c
      · rw [if_pos hx] at h1; exact Or.inl h1
      · rw [if_neg hx] at h1
        have : y = x := List.mem_singleton.mp h1
        exact Or.inr (this ▸ List.mem_cons_self x rest)
    · rcases ih h2 with h3 | h3
      · exact Or.inl h3
      · exact Or.inr (List.mem_cons_of_mem _ h3)

theorem not_mem_replaceChar_self {c : Nat} {repl : List Nat} (hr : c ∉ repl) :
    ∀ s : List Nat, c ∉ replaceChar c repl s := by
  intro s
  induction s with
  | nil => simp [replaceChar]
  | cons x rest ih =>
    rw [replaceChar]
    intro h
    rcases List.mem_append.mp h with h1 | h2
    · by_cases hx : x = c
      · rw [if_pos hx] at h1; exact hr h1
      · rw [if_neg hx] at h1; exact hx (List.mem_singleton.mp h1).symm
    · exact ih h2

theorem not_mem_replaceChar {y c : Nat} {repl s : List Nat} (hs : y ∉ s) (hr : y ∉ repl) :
    y ∉ replaceChar c repl s :=
  fun h => (mem_replaceChar s h).elim hr hs

/-- `html.escape` leaves no raw `<` (code 60) in its output. -/
theorem not_lt_mem_htmlEscape (s : List Nat) : 60 ∉ htmlEscape s := by
  unfold htmlEscape
  refine not_mem_replaceChar ?_ (by decide)
  refine not_mem_replaceChar ?_ (by decide)
  refine not_mem_replaceChar ?_ (by decide)
  exact not_mem_replaceChar_self (by decide) _

theorem hasSub_cons_eq_false {ps s : List Nat} (h : 60 ∉ s) :
    hasSub (60 :: ps) s = false := by
  induction s with
  | nil => rfl
  | cons x rest ih =>
    have hx : ¬((60 : Nat) = x) := fun he => h (he ▸ List.mem_cons_self x rest)
    have h1 : startsWithSeq (60 :: ps) (x :: rest) = false := by
      rw [startsWithSeq]; simp [hx]
    rw [hasSub, h1, ih (fun hm => h (List.mem_cons_of_mem _ hm))]
    rfl

/-- A string without a raw `<` cannot contain the changed-run marker
`<span class="inline-diff">`. -/
theorem hasSub_marker_false {s : List Nat} (h : 60 ∉ s) :
    hasSub (codes "<span class=\"inline-diff\">") s = false := by
  have e : codes "<span class=\"inline-diff\">" =
      60 :: codes "span class=\"inline-diff\">" := by decide
  rw [e]; exact hasSub_cons_eq_false h

/-! ## Limit Guard lemmas -/

theorem firstLongLine_eq_none {L : List (List Nat)}
    (h : ∀ l ∈ L, l.length ≤ LINE_LENGTH_LIMIT) :
    ∀ s, firstLongLine L s = none := by
  induction L with
  | nil => intro s; rfl
  | cons l rest ih =>
    intro s
    rw [firstLongLine, if_neg (Nat.not_lt.mpr (h l (List.mem_cons_self _ _)))]
    exact ih (fun x hx => h x (List.mem_cons_of_mem _ hx)) (s + 1)

theorem firstLongLine_eq_some :
    ∀ (L : List (List Nat)) (s i : Nat), i < L.length →
      LINE_LENGTH_LIMIT < (L.getD i []).length →
      (∀ k, k < i → (L.getD k []).length ≤ LINE_LENGTH_LIMIT) →
      firstLongLine L s = some (s + i, (L.getD i []).length) := by
  intro L
  induction L with
  | nil => intro s i hi; exact absurd hi (by simp)
  | cons l rest ih =>
    intro s i hi hlong hbefore
    cases i with
    | zero =>
      rw [firstLongLine, if_pos (by simpa using hlong)]
      simp
    | succ i' =>
      rw [firstLongLine, if_neg (Nat.not_lt.mpr (by simpa using hbefore 0 (Nat.succ_pos _)))]
      have hrec := ih (s + 1) i' (by simpa using hi) (by simpa using hlong)
        (fun k hk => by simpa using hbefore (k + 1) (Nat.succ_lt_succ hk))
      have e : s + 1 + i' = s + (i' + 1) := by omega
      rw [hrec, e]
      simp

/-- Claim C3: the Limit Guard fails with `BinaryContent` on any text with a
null element; on a null-free text it reports the first line longer than 8192
units with its 1-based number and length, and succeeds when no line exceeds
8192 units (a line of exactly 8192 units passes). -/
theorem claim_C3_limit_guard :
    ∀ text : List Nat,
      ((0 : Nat) ∈ text → check_file_limits text = GuardResult.binary) ∧
      ((0 : Nat) ∉ text →
        ((∀ l ∈ splitlines text, l.length ≤ 8192) →
          check_file_limits text = GuardResult.ok) ∧
        (∀ i, i < (splitlines text).length →
          8192 < ((splitlines text).getD i []).length →
          (∀ k, k < i → ((splitlines text).getD k []).length ≤ 8192) →
          check_file_limits text =
            GuardResult.lineTooLong (i + 1) ((splitlines text).getD i []).length)) := by
  intro text
  have hL : LINE_LENGTH_LIMIT = 8192 := by norm_num [LINE_LENGTH_LIMIT]
  constructor
  · intro h; unfold check_file_limits; rw [if_pos h]
  · intro h
    constructor
    · intro hall
      unfold check_file_limits
      rw [if_neg h, firstLongLine_eq_none (by rw [hL]; exact hall)]
    · intro i hi hlong hb
      unfold check_file_limits
      rw [if_neg h,
        firstLongLine_eq_some _ 1 i hi (by rw [hL]; exact hlong)
          (fun k hk => by rw [hL]; exact hb k hk)]
      simp [Nat.add_comm]

/-- A non-empty text containing no line-break character splits into the single
line equal to the whole text. -/
theorem splitlinesAux_no_break :
    ∀ (t acc : List Nat), (∀ c ∈ t, c ∉ lineBreaks) →
      splitlinesAux t acc =
        if acc.isEmpty && t.isEmpty then [] else [acc.reverse ++ t] := by
  intro t acc
  induction t, acc using splitlinesAux.induct with
  | case1 acc hacc =>
    intro _
    rw [splitlinesAux.eq_1, if_pos hacc]
    simp_all
  | case2 acc hacc =>
    intro _
    rw [splitlinesAux.eq_1, if_neg hacc]
    simp_all
  | case3 rest acc ih =>
    intro h
    exact absurd (by decide : (13 : Nat) ∈ lineBreaks) (h 13 (by simp))
  | case4 c rest acc hg hc ih =>
    intro h
    exact absurd hc (h c (by simp))
  | case5 c rest acc hg hc ih =>
    intro h
    rw [splitlinesAux.eq_3 _ _ _ hg, if_neg hc,
      ih (fun x hx => h x (List.mem_cons_of_mem _ hx))]
    simp

theorem splitlines_no_break {t : List Nat} (hne : t ≠ [])
    (h : ∀ c ∈ t, c ∉ lineBreaks) : splitlines t = [t] := by
  unfold splitlines
  rw [splitlinesAux_no_break t [] h]
  simp [hne]

/-- Witness for C3: a 8193-unit line is rejected as line 1 of length 8193,
a single line of exactly 8192 units passes, and a null byte is rejected. -/
theorem claim_C3_limit_guard_witness :
    check_file_limits (List.replicate 8193 120) = GuardResult.lineTooLong 1 8193 ∧
    check_file_limits (List.replicate 8192 120) = GuardResult.ok ∧
    check_file_limits [97, 0, 98] = GuardResult.binary := by
  have h120 : ∀ n : Nat, ∀ c ∈ List.replicate n (120 : Nat), c ∉ lineBreaks := by
    intro n c hc
    rw [List.eq_of_mem_replicate hc]
    decide
  have hne : ∀ n : Nat, n ≠ 0 → List.replicate n (120 : Nat) ≠ [] := by
    intro n hn h
    have := congrArg List.length h
    rw [List.length_replicate] at this
    exact hn this
  have hmem : ∀ n : Nat, (0 : Nat) ∉ List.replicate n (120 : Nat) := by
    intro n h
    have := List.eq_of_mem_replicate h
    exact absurd this (by norm_num)
  have hs1 : splitlines (List.replicate 8193 120) = [List.replicate 8193 120] :=
    splitlines_no_break (hne 8193 (by norm_num)) (h120 8193)
  have hs2 : splitlines (List.replicate 8192 120) = [List.replicate 8192 120] :=
    splitlines_no_break (hne 8192 (by norm_num)) (h120 8192)
  refine ⟨?_, ?_, ?_⟩
  · have h := (claim_C3_limit_guard (List.replicate 8193 120)).2 (hmem 8193) |>.2 0
      (by rw [hs1]; exact Nat.zero_lt_one)
      (by rw [hs1, List.getD_cons_zero, List.length_replicate]; norm_num)
      (fun k hk => absurd hk (Nat.not_lt_zero k))
    rw [hs1] at h
    rw [List.getD_cons_zero, List.length_replicate] at h
    exact h
  · refine (claim_C3_limit_guard (List.replicate 8192 120)).2 (hmem 8192) |>.1 ?_
    intro l hl
    rw [hs2, List.mem_singleton] at hl
    rw [hl, List.length_replicate]
  · exact (claim_C3_limit_guard [97, 0, 98]).1 (by decide)

/-! ## Inline Highlighter: trivial paths -/

/-- Claim C5: with `is_changed` true and two non-empty lines whose combined
length exceeds the 20480-unit budget, no character-level alignment happens:
the result is the whole line escaped and carries no changed-run marker. -/
theorem claim_C5_budget_fallback (line other_line : List Nat)
    (h1 : line ≠ []) (h2 : other_line ≠ [])
    (h3 : 20480 < line.length + other_line.length) :
    format_line_with_inline_diff line other_line true = htmlEscape line ∧
    hasSub (codes "<span class=\"inline-diff\">")
      (format_line_with_inline_diff line other_line true) = false := by
  have key : format_line_with_inline_diff line other_line true = htmlEscape line := by
    unfold format_line_with_inline_diff
    rw [if_neg (by simp [h1, h2]),
      if_pos (by rw [(by decide : INLINE_HIGHLIGHT_LIMIT = 20480)]; exact h3)]
    unfold escapeOrNbsp
    rw [if_neg h1]
  exact ⟨key, key ▸ hasSub_marker_false (not_lt_mem_htmlEscape line)⟩

/-- Witness for C5 at `line = "a"`, `other_line = 20480 copies of "a"`. -/
theorem claim_C5_budget_fallback_witness :
    format_line_with_inline_diff [97] (List.replicate 20480 97) true = htmlEscape [97] ∧
    hasSub (codes "<span class=\"inline-diff\">")
      (format_line_with_inline_diff [97] (List.replicate 20480 97) true) = false := by
  refine claim_C5_budget_fallback [97] (List.replicate 20480 97) (by decide) ?_ ?_
  · intro h
    have := congrArg List.length h
    rw [List.length_replicate] at this
    exact absurd this (by norm_num)
  · rw [List.length_replicate]
    norm_num

/-- Claim C7: with `is_changed` false or either line empty, the result is the
line escaped with no changed-run marker, an empty line rendering as the
`&nbsp;` placeholder; in particular `"<script>"` highlighted against itself
with `is_changed` false escapes `<` and `>` and does not contain the raw
substring `<script>`. -/
theorem claim_C7_no_highlight_path :
    (∀ (line other_line : List Nat) (is_changed : Bool),
      (is_changed = false ∨ line = [] ∨ other_line = []) →
      format_line_with_inline_diff line other_line is_changed =
        (if line = [] then nbsp else htmlEscape line) ∧
      hasSub (codes "<span class=\"inline-diff\">")
        (format_line_with_inline_diff line other_line is_changed) = false) ∧
    format_line_with_inline_diff (codes "<script>") (codes "<script>") false =
      codes "&lt;script&gt;" ∧
    hasSub (codes "&lt;")
      (format_line_with_inline_diff (codes "<script>") (codes "<script>") false) = true ∧
    hasSub (codes "&gt;")
      (format_line_with_inline_diff (codes "<script>") (codes "<script>") false) = true ∧
    hasSub (codes "<script>")
      (format_line_with_inline_diff (codes "<script>") (codes "<script>") false) = false := by
  constructor
  · intro line other_line is_changed h
    have key : format_line_with_inline_diff line other_line is_changed =
        escapeOrNbsp line := by
      unfold format_line_with_inline_diff
      rw [if_pos h]
    constructor
    · rw [key]; rfl
    · rw [key]
      unfold escapeOrNbsp
      by_cases hl : line = []
      · rw [if_pos hl]; decide
      · rw [if_neg hl]
        exact hasSub_marker_false (not_lt_mem_htmlEscape line)
  · exact ⟨by decide, by decide, by decide, by decide⟩

/-- Witness for C7 at `line = "ab"`, `other_line = ""`, `is_changed = true`. -/
theorem claim_C7_no_highlight_path_witness :
    format_line_with_inline_diff [97, 98] [] true =
      (if ([97, 98] : List Nat) = [] then nbsp else htmlEscape [97, 98]) ∧
    hasSub (codes "<span class=\"inline-diff\">")
      (format_line_with_inline_diff [97, 98] [] true) = false :=
  claim_C7_no_highlight_path.1 [97, 98] [] true (Or.inr (Or.inr rfl))

/-! ## Chunk filtering (C4) -/

theorem chunksFilterGo_eq_filter (l : List DiffChunk) :
    chunksFilterGo l = l.filter (fun c => decide (c.tag ≠ Tag.equal)) := by
  induction l with
  | nil => rfl
  | cons c rest ih =>
    by_cases h : c.tag = Tag.equal
    · rw [chunksFilterGo, if_neg (by simp [h]), ih, List.filter_cons,
        if_neg (by simp [h])]
    · rw [chunksFilterGo, if_pos h, ih, List.filter_cons, if_pos (by simp [h])]

/-- Claim C4: `compute_diff` returns exactly the non-equal opcodes of the
line-level alignment, in alignment order and with their ranges unchanged; every
returned chunk is tagged `insert`, `delete` or `replace`. -/
theorem claim_C4_nonequal_chunks :
    ∀ text_a text_b : List Nat,
      compute_diff text_a text_b =
        (get_opcodes (splitlines text_a) (splitlines text_b)).filter
          (fun c => decide (c.tag ≠ Tag.equal)) ∧
      ∀ c ∈ compute_diff text_a text_b,
        c.tag = Tag.insert ∨ c.tag = Tag.delete ∨ c.tag = Tag.replace := by
  intro text_a text_b
  have key : compute_diff text_a text_b =
      (get_opcodes (splitlines text_a) (splitlines text_b)).filter
        (fun c => decide (c.tag ≠ Tag.equal)) := chunksFilterGo_eq_filter _
  refine ⟨key, ?_⟩
  intro c hc
  rw [key] at hc
  have hne : c.tag ≠ Tag.equal := by
    have := List.of_mem_filter hc
    simpa using this
  cases htag : c.tag with
  | equal => exact absurd htag hne
  | replace => exact Or.inr (Or.inr rfl)
  | delete => exact Or.inr (Or.inl rfl)
  | insert => exact Or.inl rfl

/-- Witness for C4 at the spec's insert example. -/
theorem claim_C4_nonequal_chunks_witness :
    compute_diff (codes "line1\nline3") (codes "line1\nline2\nline3") =
      (get_opcodes (splitlines (codes "line1\nline3"))
        (splitlines (codes "line1\nline2\nline3"))).filter
        (fun c => decide (c.tag ≠ Tag.equal)) ∧
    ∀ c ∈ compute_diff (codes "line1\nline3") (codes "line1\nline2\nline3"),
      c.tag = Tag.insert ∨ c.tag = Tag.delete ∨ c.tag = Tag.replace :=
  claim_C4_nonequal_chunks (codes "line1\nline3") (codes "line1\nline2\nline3")

/-! ## Line Projector (C8) -/

/-- If the first chunk containing `i` is a replace chunk, the second scan (for
replace chunks only) finds that same chunk. -/
theorem findContainingReplace_eq {chunks : List DiffChunk} {isLeft : Bool} {i : Nat}
    {c : DiffChunk} (h : findContaining chunks isLeft i = some c)
    (htag : c.tag = Tag.replace) :
    findContainingReplace chunks isLeft i = some c := by
  induction chunks with
  | nil => exact absurd h (by simp [findContaining])
  | cons d rest ih =>
    rw [findContaining] at h
    by_cases hd : chunkContains isLeft i d
    · rw [if_pos hd] at h
      have hdc : d = c := by injection h
      subst hdc
      rw [findContainingReplace, if_pos (by simp [hd, htag])]
    · rw [if_neg hd] at h
      rw [findContainingReplace, if_neg (by simp [hd]), ih h]

theorem formatLinesGo_length (other_lines : List (List Nat)) (chunks : List DiffChunk)
    (isLeft : Bool) :
    ∀ (lines : List (List Nat)) (s : Nat),
      (formatLinesGo other_lines chunks isLeft s lines).length = lines.length := by
  intro lines
  induction lines with
  | nil => intro s; rfl
  | cons l rest ih => intro s; rw [formatLinesGo]; simp [ih (s + 1)]

theorem formatLinesGo_getD (other_lines : List (List Nat)) (chunks : List DiffChunk)
    (isLeft : Bool) :
    ∀ (lines : List (List Nat)) (s i : Nat), i < lines.length →
      (formatLinesGo other_lines chunks isLeft s lines).getD i [] =
        renderLine other_lines chunks isLeft (s + i) (lines.getD i []) := by
  intro lines
  induction lines with
  | nil => intro s i hi; exact absurd hi (by simp)
  | cons l rest ih =>
    intro s i hi
    cases i with
    | zero => rw [formatLinesGo]; simp
    | succ i' =>
      rw [formatLinesGo]
      have := ih (s + 1) i' (by simpa using hi)
      simpa [Nat.add_assoc, Nat.add_comm 1 i'] using this

/-- Claim C8: the Line Projector emits exactly one record per input line, in
input order (blank lines included); a line whose (first) containing chunk is a
replace chunk is paired with `otherChunkStart + (i - thisChunkStart)` on the
other side, highlighted with `is_changed = true` when that index is in bounds
and rendered as plain escaped content otherwise. -/
theorem claim_C8_line_projector :
    ∀ (lines other_lines : List (List Nat)) (chunks : List DiffChunk) (isLeft : Bool),
      (formatLinesGo other_lines chunks isLeft 0 lines).length = lines.length ∧
      (∀ i, i < lines.length →
        (formatLinesGo other_lines chunks isLeft 0 lines).getD i [] =
          renderLine other_lines chunks isLeft i (lines.getD i [])) ∧
      format_lines lines other_lines chunks isLeft =
        List.intercalate [10] (formatLinesGo other_lines chunks isLeft 0 lines) ∧
      (∀ i c, findContaining chunks isLeft i = some c → c.tag = Tag.replace →
        ∀ line, lineContent other_lines chunks isLeft i line =
          (if pairedIdx isLeft i c < other_lines.length then
            format_line_with_inline_diff line
              (other_lines.getD (pairedIdx isLeft i c) []) true
          else escapeOrNbsp line)) := by
  intro lines other_lines chunks isLeft
  refine ⟨formatLinesGo_length _ _ _ lines 0, ?_, rfl, ?_⟩
  · intro i hi
    simpa using formatLinesGo_getD other_lines chunks isLeft lines 0 i hi
  · intro i c h htag line
    simp only [lineContent, h, htag, findContainingReplace_eq h htag]
    rw [if_pos trivial]

/-- Witness for C8: a one-line pane against a one-line other pane with a
single replace chunk pairs index 0 with index 0 and highlights. -/
theorem claim_C8_line_projector_witness :
    lineContent [[97, 99]] [⟨Tag.replace, 0, 1, 0, 1⟩] true 0 [97, 98] =
      (if pairedIdx true 0 ⟨Tag.replace, 0, 1, 0, 1⟩ <
          ([[97, 99]] : List (List Nat)).length then
        format_line_with_inline_diff [97, 98]
          (([[97, 99]] : List (List Nat)).getD
            (pairedIdx true 0 ⟨Tag.replace, 0, 1, 0, 1⟩) []) true
      else escapeOrNbsp [97, 98]) :=
  (claim_C8_line_projector [[97, 98]] [[97, 99]] [⟨Tag.replace, 0, 1, 0, 1⟩]
    true).2.2.2 0 ⟨Tag.replace, 0, 1, 0, 1⟩ (by decide) rfl [97, 98]

/-! ## Scan lemmas -/

theorem lexLt_irrefl (p : Nat × Nat) : ¬ lexLt p p := by
  intro h
  rcases h with h | ⟨_, h⟩ <;> exact Nat.lt_irrefl _ h

theorem lexLt_asymm {p q : Nat × Nat} (h : lexLt p q) : ¬ lexLt q p := by
  intro h'
  rcases h with h1 | ⟨h1, h2⟩ <;> rcases h' with h1' | ⟨h1', h2'⟩ <;> omega

section ScanLemmas

variable {α : Type} [DecidableEq α] [Inhabited α]

theorem mem_occurrences {b : List α} {x : α} {j : Nat} :
    j ∈ occurrences b x ↔ j < b.length ∧ b.getD j default = x := by
  unfold occurrences
  rw [List.mem_filter, List.mem_range]
  simp

theorem mem_b2jIdx_sub {b : List α} {x : α} {j : Nat} (h : j ∈ b2jIdx b x) :
    j < b.length ∧ b.getD j default = x := by
  unfold b2jIdx at h
  by_cases hp : isPopular b x
  · rw [if_pos hp] at h; exact absurd h (by simp)
  · rw [if_neg hp] at h; exact mem_occurrences.mp h

theorem mem_rowJs {a b : List α} {blo bhi i j : Nat} :
    j ∈ rowJs a b blo bhi i ↔ visitedB a b blo bhi i j = true := by
  unfold rowJs visitedB
  rw [List.mem_filter]
  simp only [Bool.and_eq_true, decide_eq_true_eq]
  tauto

/-- A visited position matches: `b[j] == a[i]` (and `j` is in window and in
range of `b`). -/
theorem visitedB_spec {a b : List α} {blo bhi i j : Nat}
    (h : visitedB a b blo bhi i j = true) :
    blo ≤ j ∧ j < bhi ∧ j < b.length ∧ b.getD j default = a.getD i default := by
  unfold visitedB at h
  simp only [Bool.and_eq_true, decide_eq_true_eq] at h
  obtain ⟨⟨h1, h2⟩, h3⟩ := h
  obtain ⟨h4, h5⟩ := mem_b2jIdx_sub h3
  exact ⟨h1, h2, h4, h5⟩

theorem chainLen_zero_of_not_visited {a b : List α} {alo blo bhi i j : Nat}
    (h : visitedB a b blo bhi i j = false) :
    chainLen a b alo blo bhi i j = 0 := by
  cases i with
  | zero => rw [chainLen, if_neg (by simp [h])]
  | succ i' => rw [chainLen, if_neg (by simp [h])]

theorem visitedB_of_chain_pos {a b : List α} {alo blo bhi i j : Nat}
    (h : 0 < chainLen a b alo blo bhi i j) :
    visitedB a b blo bhi i j = true := by
  by_contra hv
  rw [chainLen_zero_of_not_visited (Bool.not_eq_true _ ▸ hv)] at h
  exact Nat.lt_irrefl 0 h

/-- The chain is cut at row `alo`: its length never exceeds `i + 1 - alo`. -/
theorem chainLen_le_row {a b : List α} {alo blo bhi : Nat} :
    ∀ i j, alo ≤ i → alo + chainLen a b alo blo bhi i j ≤ i + 1 := by
  intro i
  induction i with
  | zero =>
    intro j h0
    have : alo = 0 := Nat.le_zero.mp h0
    subst this
    rw [chainLen]
    by_cases hv : visitedB a b blo bhi 0 j = true
    · rw [if_pos hv]
    · rw [if_neg hv]; omega
  | succ i' ih =>
    intro j hle
    rw [chainLen]
    by_cases hv : visitedB a b blo bhi (i' + 1) j = true
    · rw [if_pos hv]
      by_cases hz : i' + 1 = alo ∨ j = 0
      · rw [if_pos hz]; omega
      · rw [if_neg hz]
        push_neg at hz
        have hle' : alo ≤ i' := by omega
        have := ih (j - 1) hle'
        omega
    · rw [if_neg hv]; omega

/-- Every link of the chain ending at `(i, j)` is a visited position. -/
theorem chainLen_links {a b : List α} {alo blo bhi : Nat} :
    ∀ i j t, t < chainLen a b alo blo bhi i j →
      visitedB a b blo bhi (i - t) (j - t) = true := by
  intro i
  induction i with
  | zero =>
    intro j t ht
    rw [chainLen] at ht
    by_cases hv : visitedB a b blo bhi 0 j = true
    · rw [if_pos hv] at ht
      have : t = 0 := by omega
      subst this
      simpa using hv
    · rw [if_neg hv] at ht; omega
  | succ i' ih =>
    intro j t ht
    rw [chainLen] at ht
    by_cases hv : visitedB a b blo bhi (i' + 1) j = true
    · rw [if_pos hv] at ht
      cases t with
      | zero => simpa using hv
      | succ t' =>
        by_cases hz : i' + 1 = alo ∨ j = 0
        · rw [if_pos hz] at ht; omega
        · rw [if_neg hz] at ht
          have ht' : t' < chainLen a b alo blo bhi i' (j - 1) := by omega
          have := ih (j - 1) t' ht'
          have e1 : i' - t' = i' + 1 - (t' + 1) := by omega
          have e2 : j - 1 - t' = j - (t' + 1) := by omega
          rwa [e1, e2] at this
    · rw [if_neg hv] at ht; omega

/-- The chain is cut at column 0: its length never exceeds `j + 1`. -/
theorem chainLen_le_colmax {a b : List α} {alo blo bhi : Nat} :
    ∀ i j, chainLen a b alo blo bhi i j ≤ j + 1 := by
  intro i
  induction i with
  | zero =>
    intro j
    rw [chainLen]
    by_cases hv : visitedB a b blo bhi 0 j = true
    · rw [if_pos hv]; omega
    · rw [if_neg hv]; omega
  | succ i' ih =>
    intro j
    rw [chainLen]
    by_cases hv : visitedB a b blo bhi (i' + 1) j = true
    · rw [if_pos hv]
      by_cases hz : i' + 1 = alo ∨ j = 0
      · rw [if_pos hz]
        rcases hz with hz | hz
        · omega
        · omega
      · rw [if_neg hz]
        push_neg at hz
        have := ih (j - 1)
        omega
    · rw [if_neg hv]; omega

/-- The chain is cut below column `blo`: its length never exceeds
`j + 1 - blo`. -/
theorem chainLen_le_col {a b : List α} {alo blo bhi i j : Nat}
    (h : 0 < chainLen a b alo blo bhi i j) :
    blo + chainLen a b alo blo bhi i j ≤ j + 1 := by
  have hmax : chainLen a b alo blo bhi i j ≤ j + 1 := chainLen_le_colmax i j
  have hlast : visitedB a b blo bhi (i - (chainLen a b alo blo bhi i j - 1))
      (j - (chainLen a b alo blo bhi i j - 1)) = true :=
    @chainLen_links α _ _ a b alo blo bhi i j
      (chainLen a b alo blo bhi i j - 1) (by omega)
  have hblo := (visitedB_spec hlast).1
  omega

/-- The last link gives `j < bhi` for non-trivial chains. -/
theorem chainLen_col_lt {a b : List α} {alo blo bhi i j : Nat}
    (h : 0 < chainLen a b alo blo bhi i j) : blo ≤ j ∧ j < bhi := by
  have := visitedB_spec (visitedB_of_chain_pos h)
  exact ⟨this.1, this.2.1⟩

/-- Chains have matching elements, end-relative: `a[i-t] == b[j-t]`. -/
theorem chainLen_match {a b : List α} {alo blo bhi i j : Nat} :
    ∀ t, t < chainLen a b alo blo bhi i j →
      b.getD (j - t) default = a.getD (i - t) default := by
  intro t ht
  exact (visitedB_spec (chainLen_links i j t ht)).2.2.2

/-- Lower bound: a run of visited positions ending at `(i, j)` that fits above
`alo` and inside column range forces `chainLen` at least that long. -/
theorem chainLen_ge {a b : List α} {alo blo bhi : Nat} :
    ∀ k i j, (∀ t, t < k → visitedB a b blo bhi (i - t) (j - t) = true) →
      alo + k ≤ i + 1 → k ≤ j + 1 → k ≤ chainLen a b alo blo bhi i j := by
  intro k
  induction k with
  | zero => intro i j _ _ _; exact Nat.zero_le _
  | succ k' ih =>
    intro i j hvis hrow hcol
    have hv0 : visitedB a b blo bhi i j = true := by simpa using hvis 0 (Nat.succ_pos _)
    cases i with
    | zero =>
      have : alo = 0 ∧ k' = 0 := by omega
      obtain ⟨h1, h2⟩ := this
      subst h1; subst h2
      rw [chainLen, if_pos hv0]
    | succ i' =>
      rw [chainLen, if_pos hv0]
      cases Nat.eq_zero_or_pos k' with
      | inl h0 => subst h0; omega
      | inr hpos =>
        have hz : ¬(i' + 1 = alo ∨ j = 0) := by omega
        rw [if_neg hz]
        have hsub : k' ≤ chainLen a b alo blo bhi i' (j - 1) := by
          refine ih i' (j - 1) ?_ (by omega) (by omega)
          intro t ht
          have := hvis (t + 1) (by omega)
          have e1 : i' + 1 - (t + 1) = i' - t := by omega
          have e2 : j - (t + 1) = j - 1 - t := by omega
          rwa [e1, e2] at this
        omega

end ScanLemmas

section ScanFold

variable {α : Type} [DecidableEq α] [Inhabited α]

/-- The value computed for a visited `j` in row `i` is exactly the chain
length at `(i, j)`. -/
theorem chainLen_step {a b : List α} {alo blo bhi i j : Nat} (hi : alo ≤ i)
    (hv : visitedB a b blo bhi i j = true) (j2len : Nat → Nat)
    (hj2 : ∀ x, j2len x = prevRow a b alo blo bhi i x) :
    (if j = 0 then 0 else j2len (j - 1)) + 1 = chainLen a b alo blo bhi i j := by
  cases i with
  | zero =>
    have halo : alo = 0 := Nat.le_zero.mp hi
    subst halo
    rw [chainLen, if_pos hv]
    by_cases hj : j = 0
    · rw [if_pos hj]
    · rw [if_neg hj, hj2]
      simp [prevRow]
  | succ i' =>
    rw [chainLen, if_pos hv]
    by_cases hj : j = 0
    · rw [if_pos hj, if_pos (Or.inr hj)]
    · rw [if_neg hj, hj2]
      simp only [prevRow]
      by_cases hA : i' + 1 = alo
      · rw [if_pos hA, if_pos (Or.inl hA)]
      · rw [if_neg hA, if_neg (by tauto : ¬(i' + 1 = alo ∨ j = 0))]
        simp

/-- One scan row equals a fold of best-updates over its visited positions,
and leaves `newj2len` holding the row's chain lengths. -/
theorem flmInner_spec {a b : List α} {alo blo bhi : Nat} {i : Nat} (hi : alo ≤ i)
    {j2len : Nat → Nat} (hj2 : ∀ x, j2len x = prevRow a b alo blo bhi i x) :
    ∀ (js : List Nat) (nj : Nat → Nat) (st : FLMState),
      (∀ j ∈ js, visitedB a b blo bhi i j = true) →
      (∀ x, (flmInner j2len i js nj st).1 x =
        if x ∈ js then chainLen a b alo blo bhi i x else nj x) ∧
      (flmInner j2len i js nj st).2 =
        List.foldl (bestUpd (chainF a b alo blo bhi) mkEnd) st
          (js.map (fun j => (i, j))) := by
  intro js
  induction js with
  | nil =>
    intro nj st _
    exact ⟨fun x => by simp [flmInner], by simp [flmInner]⟩
  | cons j rest ih =>
    intro nj st hvis
    have hv : visitedB a b blo bhi i j = true := hvis j (List.mem_cons_self _ _)
    have hk := chainLen_step hi hv j2len hj2
    have step : flmInner j2len i (j :: rest) nj st =
        flmInner j2len i rest
          (fun x => if x = j then chainLen a b alo blo bhi i j else nj x)
          (bestUpd (chainF a b alo blo bhi) mkEnd st (i, j)) := by
      rw [flmInner, hk]
      rfl
    rw [step]
    obtain ⟨hfun, hst⟩ := ih
      (fun x => if x = j then chainLen a b alo blo bhi i j else nj x)
      (bestUpd (chainF a b alo blo bhi) mkEnd st (i, j))
      (fun x hx => hvis x (List.mem_cons_of_mem _ hx))
    constructor
    · intro x
      rw [hfun x]
      by_cases hxr : x ∈ rest
      · rw [if_pos hxr, if_pos (List.mem_cons_of_mem _ hxr)]
      · rw [if_neg hxr]
        by_cases hxj : x = j
        · rw [if_pos hxj, if_pos (by rw [hxj]; exact List.mem_cons_self _ _), hxj]
        · rw [if_neg hxj, if_neg (by simp [hxj, hxr])]
    · rw [hst]
      rfl

/-- The scan loop from row `i` equals a fold of best-updates over the visited
positions of the remaining rows, provided `j2len` holds the previous row's
chain lengths. -/
theorem flmLoop_spec {a b : List α} {alo blo bhi : Nat} :
    ∀ (n i : Nat) (j2len : Nat → Nat) (st : FLMState), alo ≤ i →
      (∀ x, j2len x = prevRow a b alo blo bhi i x) →
      flmLoop a b blo bhi (List.range' i n) j2len st =
        List.foldl (bestUpd (chainF a b alo blo bhi) mkEnd) st
          ((List.range' i n).flatMap
            (fun r => (rowJs a b blo bhi r).map (fun j => (r, j)))) := by
  intro n
  induction n with
  | zero => intro i j2len st _ _; rfl
  | succ n' ih =>
    intro i j2len st hi hj2
    rw [List.range'_succ]
    obtain ⟨hfun, hst⟩ := flmInner_spec hi hj2 (rowJs a b blo bhi i) (fun _ => 0) st
      (fun j hj => mem_rowJs.mp hj)
    have step : flmLoop a b blo bhi (i :: List.range' (i + 1) n') j2len st =
        flmLoop a b blo bhi (List.range' (i + 1) n')
          (flmInner j2len i (rowJs a b blo bhi i) (fun _ => 0) st).1
          (flmInner j2len i (rowJs a b blo bhi i) (fun _ => 0) st).2 := rfl
    rw [step, List.flatMap_cons, List.foldl_append, ← hst]
    refine ih (i + 1) _ _ (Nat.le_succ_of_le hi) ?_
    intro x
    rw [hfun x]
    simp only [prevRow]
    rw [if_neg (by omega : ¬(i + 1 = alo))]
    have e : i + 1 - 1 = i := rfl
    rw [e]
    by_cases hx : x ∈ rowJs a b blo bhi i
    · rw [if_pos hx]
    · rw [if_neg hx]
      refine (chainLen_zero_of_not_visited ?_).symm
      by_contra hv
      exact hx (mem_rowJs.mpr (by
        cases h : visitedB a b blo bhi i x
        · exact absurd h hv
        · rfl))

/-- The whole scan of `find_longest_match` is a fold of best-updates over the
visited positions in scan order. -/
theorem scan_eq_foldl (a b : List α) (alo ahi blo bhi : Nat) :
    flmLoop a b blo bhi (List.range' alo (ahi - alo)) (fun _ => 0) ⟨alo, blo, 0⟩ =
      List.foldl (bestUpd (chainF a b alo blo bhi) mkEnd) ⟨alo, blo, 0⟩
        (scanPos a b alo ahi blo bhi) := by
  refine flmLoop_spec (ahi - alo) alo _ _ (le_refl alo) ?_
  intro x
  simp [prevRow]

end ScanFold

/-- Characterisation of a fold of strict-improvement best-updates over a
lexicographically sorted position list: either no candidate beats the initial
state, or the result records the lexicographically first position achieving
the maximum value. -/
theorem foldl_bestUpd_spec (f : Nat × Nat → Nat) (mk : Nat × Nat → Nat → FLMState)
    (hmk : ∀ p k, (mk p k).bestsize = k) :
    ∀ (l : List (Nat × Nat)) (st : FLMState), l.Pairwise lexLt →
      (List.foldl (bestUpd f mk) st l = st ∧ ∀ p ∈ l, f p ≤ st.bestsize) ∨
      (∃ p ∈ l, st.bestsize < f p ∧
        List.foldl (bestUpd f mk) st l = mk p (f p) ∧
        (∀ q ∈ l, f q ≤ f p) ∧ (∀ q ∈ l, lexLt q p → f q < f p)) := by
  intro l
  induction l with
  | nil => intro st _; exact Or.inl ⟨rfl, by simp⟩
  | cons h t ih =>
    intro st hsort
    have hsort' : t.Pairwise lexLt := hsort.of_cons
    have hhd : ∀ q ∈ t, lexLt h q := (List.pairwise_cons.mp hsort).1
    by_cases hcase : st.bestsize < f h
    · have step : List.foldl (bestUpd f mk) st (h :: t) =
          List.foldl (bestUpd f mk) (mk h (f h)) t := by
        rw [List.foldl_cons]
        unfold bestUpd
        rw [if_pos hcase]
      rcases ih (mk h (f h)) hsort' with ⟨heq, hall⟩ | ⟨p, hp, hlt, heq, hmax, hfirst⟩
      · refine Or.inr ⟨h, List.mem_cons_self _ _, hcase, by rw [step, heq], ?_, ?_⟩
        · intro q hq
          rcases List.mem_cons.mp hq with rfl | hq'
          · exact le_refl _
          · have := hall q hq'; rwa [hmk] at this
        · intro q hq hql
          rcases List.mem_cons.mp hq with rfl | hq'
          · exact absurd hql (lexLt_irrefl q)
          · exact absurd hql (lexLt_asymm (hhd q hq'))
      · rw [hmk] at hlt
        refine Or.inr ⟨p, List.mem_cons_of_mem _ hp, lt_trans hcase hlt,
          by rw [step, heq], ?_, ?_⟩
        · intro q hq
          rcases List.mem_cons.mp hq with rfl | hq'
          · exact le_of_lt hlt
          · exact hmax q hq'
        · intro q hq hql
          rcases List.mem_cons.mp hq with rfl | hq'
          · exact hlt
          · exact hfirst q hq' hql
    · have step : List.foldl (bestUpd f mk) st (h :: t) =
          List.foldl (bestUpd f mk) st t := by
        rw [List.foldl_cons]
        unfold bestUpd
        rw [if_neg hcase]
      rcases ih st hsort' with ⟨heq, hall⟩ | ⟨p, hp, hlt, heq, hmax, hfirst⟩
      · refine Or.inl ⟨by rw [step, heq], ?_⟩
        intro q hq
        rcases List.mem_cons.mp hq with rfl | hq'
        · exact Nat.not_lt.mp hcase
        · exact hall q hq'
      · refine Or.inr ⟨p, List.mem_cons_of_mem _ hp, hlt, by rw [step, heq], ?_, ?_⟩
        · intro q hq
          rcases List.mem_cons.mp hq with rfl | hq'
          · exact le_trans (Nat.not_lt.mp hcase) (le_of_lt hlt)
          · exact hmax q hq'
        · intro q hq hql
          rcases List.mem_cons.mp hq with rfl | hq'
          · exact lt_of_le_of_lt (Nat.not_lt.mp hcase) hlt
          · exact hfirst q hq' hql

section ScanPos

variable {α : Type} [DecidableEq α] [Inhabited α]

theorem rowJs_sorted (a b : List α) (blo bhi i : Nat) :
    (rowJs a b blo bhi i).Pairwise (· < ·) := by
  unfold rowJs b2jIdx
  by_cases hp : isPopular b (a.getD i default)
  · rw [if_pos hp]; simp
  · rw [if_neg hp]
    unfold occurrences
    exact ((List.pairwise_lt_range _).filter _).filter _

theorem mem_scanPos {a b : List α} {alo ahi blo bhi : Nat} {p : Nat × Nat} :
    p ∈ scanPos a b alo ahi blo bhi ↔
      alo ≤ p.1 ∧ p.1 < ahi ∧ visitedB a b blo bhi p.1 p.2 = true := by
  unfold scanPos
  rw [List.mem_flatMap]
  constructor
  · rintro ⟨i, hi, hp⟩
    rw [List.mem_map] at hp
    obtain ⟨j, hj, rfl⟩ := hp
    rw [List.mem_range'_1] at hi
    exact ⟨hi.1, by omega, mem_rowJs.mp hj⟩
  · rintro ⟨h1, h2, h3⟩
    refine ⟨p.1, List.mem_range'_1.mpr ⟨h1, by omega⟩, ?_⟩
    rw [List.mem_map]
    exact ⟨p.2, mem_rowJs.mpr h3, rfl⟩

theorem scanPos_sorted (a b : List α) (alo ahi blo bhi : Nat) :
    (scanPos a b alo ahi blo bhi).Pairwise lexLt := by
  unfold scanPos
  rw [List.flatMap_def, List.pairwise_flatten]
  constructor
  · intro l hl
    rw [List.mem_map] at hl
    obtain ⟨i, _, rfl⟩ := hl
    rw [List.pairwise_map]
    exact (rowJs_sorted a b blo bhi i).imp (fun h => Or.inr ⟨rfl, h⟩)
  · have : (List.range' alo (ahi - alo)).Pairwise (· < ·) :=
      List.pairwise_lt_range' _ _
    rw [List.pairwise_map]
    refine this.imp ?_
    intro i i' hii x hx y hy
    rw [List.mem_map] at hx hy
    obtain ⟨j, _, rfl⟩ := hx
    obtain ⟨j', _, rfl⟩ := hy
    exact Or.inl hii

end ScanPos

/-! ## Extension loop lemmas -/

section ExtendLemmas

variable {α : Type} [DecidableEq α] [Inhabited α]

theorem extendBack_spec (a b : List α) (alo blo : Nat) :
    ∀ i j k, alo ≤ i → blo ≤ j →
      (∀ t, t < k → a.getD (i + t) default = b.getD (j + t) default) →
      alo ≤ (extendBack a b alo blo i j k).1 ∧
      blo ≤ (extendBack a b alo blo i j k).2.1 ∧
      (extendBack a b alo blo i j k).1 + (extendBack a b alo blo i j k).2.2 = i + k ∧
      (extendBack a b alo blo i j k).2.1 + (extendBack a b alo blo i j k).2.2 = j + k ∧
      (∀ t, t < (extendBack a b alo blo i j k).2.2 →
        a.getD ((extendBack a b alo blo i j k).1 + t) default =
          b.getD ((extendBack a b alo blo i j k).2.1 + t) default) := by
  intro i
  induction i with
  | zero =>
    intro j k h1 h2 h3
    exact ⟨h1, h2, rfl, rfl, h3⟩
  | succ i' ih =>
    intro j k h1 h2 h3
    by_cases hc : alo ≤ i' ∧ blo < j ∧ a.getD i' default = b.getD (j - 1) default
    · rw [extendBack, if_pos hc]
      have hj1 : 1 ≤ j := by omega
      have hmatch : ∀ t, t < k + 1 →
          a.getD (i' + t) default = b.getD (j - 1 + t) default := by
        intro t ht
        cases t with
        | zero => simpa using hc.2.2
        | succ t' =>
          have e1 : i' + (t' + 1) = i' + 1 + t' := by omega
          have e2 : j - 1 + (t' + 1) = j + t' := by omega
          rw [e1, e2]
          exact h3 t' (by omega)
      obtain ⟨c1, c2, c3, c4, c5⟩ := ih (j - 1) (k + 1) hc.1 (by omega) hmatch
      exact ⟨c1, c2, by omega, by omega, c5⟩
    · rw [extendBack, if_neg hc]
      exact ⟨h1, h2, rfl, rfl, h3⟩

/-- `extendBack` is the identity when the loop condition already fails. -/
theorem extendBack_noop (a b : List α) (alo blo : Nat) (i j k : Nat)
    (h : ¬(alo < i ∧ blo < j ∧ a.getD (i - 1) default = b.getD (j - 1) default)) :
    extendBack a b alo blo i j k = (i, j, k) := by
  cases i with
  | zero => rfl
  | succ i' =>
    rw [extendBack, if_neg]
    intro hc
    exact h ⟨by omega, hc.2.1, by simpa using hc.2.2⟩

/-- Fully extending backwards along the diagonal of identical sequences. -/
theorem extendBack_diag (a : List α) (alo : Nat) :
    ∀ i k, alo ≤ i → extendBack a a alo alo i i k = (alo, alo, k + (i - alo)) := by
  intro i
  induction i with
  | zero =>
    intro k h
    have : alo = 0 := Nat.le_zero.mp h
    subst this
    rfl
  | succ i' ih =>
    intro k h
    by_cases hc : alo ≤ i'
    · rw [extendBack, if_pos ⟨hc, by omega, rfl⟩]
      have e : i' + 1 - 1 = i' := rfl
      rw [e, ih (k + 1) hc]
      have e2 : k + 1 + (i' - alo) = k + (i' + 1 - alo) := by omega
      rw [e2]
    · have halo : alo = i' + 1 := by omega
      rw [extendBack, if_neg (by tauto)]
      rw [halo]
      simp

theorem extendFwd_spec (a b : List α) (bhi i j : Nat) :
    ∀ rem k,
      (∀ t, t < k → a.getD (i + t) default = b.getD (j + t) default) →
      k ≤ extendFwd a b bhi i j rem k ∧
      extendFwd a b bhi i j rem k ≤ k + rem ∧
      (∀ t, t < extendFwd a b bhi i j rem k →
        a.getD (i + t) default = b.getD (j + t) default) ∧
      (extendFwd a b bhi i j rem k = k ∨ j + extendFwd a b bhi i j rem k ≤ bhi) := by
  intro rem
  induction rem with
  | zero =>
    intro k h
    simp only [extendFwd]
    exact ⟨le_refl _, by omega, h, Or.inl trivial⟩
  | succ rem' ih =>
    intro k h
    by_cases hc : j + k < bhi ∧ a.getD (i + k) default = b.getD (j + k) default
    · rw [extendFwd, if_pos hc]
      have hmatch : ∀ t, t < k + 1 →
          a.getD (i + t) default = b.getD (j + t) default := by
        intro t ht
        by_cases htk : t < k
        · exact h t htk
        · have : t = k := by omega
          subst this
          exact hc.2
      obtain ⟨c1, c2, c3, c4⟩ := ih (k + 1) hmatch
      refine ⟨by omega, by omega, c3, Or.inr ?_⟩
      rcases c4 with c4 | c4
      · omega
      · exact c4
    · rw [extendFwd, if_neg hc]
      exact ⟨le_refl _, by omega, h, Or.inl rfl⟩

/-- `extendFwd` is the identity when the loop condition already fails. -/
theorem extendFwd_noop (a b : List α) (bhi i j : Nat) (rem k : Nat)
    (h : ¬(j + k < bhi ∧ a.getD (i + k) default = b.getD (j + k) default)) :
    extendFwd a b bhi i j rem k = k := by
  cases rem with
  | zero => rfl
  | succ rem' => rw [extendFwd, if_neg h]

/-- Fully extending forwards along the diagonal of identical sequences. -/
theorem extendFwd_diag (a : List α) (bhi j : Nat) :
    ∀ rem k, j + k + rem ≤ bhi → extendFwd a a bhi j j rem k = k + rem := by
  intro rem
  induction rem with
  | zero => intro k _; rfl
  | succ rem' ih =>
    intro k h
    rw [extendFwd, if_pos ⟨by omega, rfl⟩, ih (k + 1) (by omega)]
    omega

/-! ## `find_longest_match`: bounds and match property -/

section FlmFacts

variable {α : Type} [DecidableEq α] [Inhabited α]

/-- The scan either never improves on the empty initial state, or stores the
lexicographically first position of maximal chain length. -/
theorem flm_scan_cases (a b : List α) (alo ahi blo bhi : Nat) :
    flmLoop a b blo bhi (List.range' alo (ahi - alo)) (fun _ => 0) ⟨alo, blo, 0⟩ =
        (⟨alo, blo, 0⟩ : FLMState) ∨
    (∃ p ∈ scanPos a b alo ahi blo bhi,
      0 < chainF a b alo blo bhi p ∧
      flmLoop a b blo bhi (List.range' alo (ahi - alo)) (fun _ => 0) ⟨alo, blo, 0⟩ =
        mkEnd p (chainF a b alo blo bhi p) ∧
      (∀ q ∈ scanPos a b alo ahi blo bhi,
        chainF a b alo blo bhi q ≤ chainF a b alo blo bhi p) ∧
      (∀ q ∈ scanPos a b alo ahi blo bhi, lexLt q p →
        chainF a b alo blo bhi q < chainF a b alo blo bhi p)) := by
  rw [scan_eq_foldl]
  rcases foldl_bestUpd_spec (chainF a b alo blo bhi) mkEnd (fun p k => rfl)
      (scanPos a b alo ahi blo bhi) ⟨alo, blo, 0⟩ (scanPos_sorted a b alo ahi blo bhi)
    with ⟨heq, _⟩ | ⟨p, hp, hpos, heq, hmax, hfirst⟩
  · exact Or.inl heq
  · exact Or.inr ⟨p, hp, hpos, heq, hmax, hfirst⟩

/-- Bounds and match property of `find_longest_match`: a non-trivial result
lies inside the window, and the reported block is a true common block. -/
theorem flm_bounds_match (a b : List α) (alo ahi blo bhi : Nat) :
    (0 < (find_longest_match a b alo ahi blo bhi).size →
      alo ≤ (find_longest_match a b alo ahi blo bhi).a ∧
      blo ≤ (find_longest_match a b alo ahi blo bhi).b ∧
      (find_longest_match a b alo ahi blo bhi).a +
        (find_longest_match a b alo ahi blo bhi).size ≤ ahi ∧
      (find_longest_match a b alo ahi blo bhi).b +
        (find_longest_match a b alo ahi blo bhi).size ≤ bhi) ∧
    (∀ t, t < (find_longest_match a b alo ahi blo bhi).size →
      a.getD ((find_longest_match a b alo ahi blo bhi).a + t) default =
        b.getD ((find_longest_match a b alo ahi blo bhi).b + t) default) := by
  rcases flm_scan_cases a b alo ahi blo bhi with hst | ⟨p, hp, hpos, hst, hmax, hfirst⟩
  · -- the scan found nothing: the backward loop cannot fire at (alo, blo, 0)
    have hback : extendBack a b alo blo alo blo 0 = (alo, blo, 0) :=
      extendBack_noop a b alo blo alo blo 0 (fun h => Nat.lt_irrefl _ h.1)
    have hm : find_longest_match a b alo ahi blo bhi =
        ⟨alo, blo, extendFwd a b bhi alo blo (ahi - (alo + 0)) 0⟩ := by
      unfold find_longest_match
      rw [hst]
      simp only [hback]
    obtain ⟨f1, f2, f3, f4⟩ := extendFwd_spec a b bhi alo blo (ahi - (alo + 0)) 0
      (fun t ht => absurd ht (Nat.not_lt_zero t))
    rw [hm]
    dsimp only
    constructor
    · intro hk
      refine ⟨le_refl _, le_refl _, by omega, ?_⟩
      rcases f4 with f4 | f4
      · omega
      · exact f4
    · intro t ht
      exact f3 t ht
  · -- the scan found the first maximal chain ending at p
    obtain ⟨hrowlo, hrowhi, hvis⟩ := mem_scanPos.mp hp
    obtain ⟨hblo, hbhi, _, _⟩ := visitedB_spec hvis
    set L := chainF a b alo blo bhi p with hL
    have hrow : alo + L ≤ p.1 + 1 := chainLen_le_row p.1 p.2 hrowlo
    have hcol : blo + L ≤ p.2 + 1 := chainLen_le_col hpos
    have hmatch0 : ∀ t, t < L →
        a.getD (p.1 + 1 - L + t) default = b.getD (p.2 + 1 - L + t) default := by
      intro t ht
      have hu : L - 1 - t < L := by omega
      have := (chainLen_match (L - 1 - t) hu).symm
      have e1 : p.1 - (L - 1 - t) = p.1 + 1 - L + t := by omega
      have e2 : p.2 - (L - 1 - t) = p.2 + 1 - L + t := by omega
      rwa [e1, e2] at this
    obtain ⟨c1, c2, c3, c4, c5⟩ := extendBack_spec a b alo blo
      (p.1 + 1 - L) (p.2 + 1 - L) L (by omega) (by omega) hmatch0
    set e := extendBack a b alo blo (p.1 + 1 - L) (p.2 + 1 - L) L with he
    have hm : find_longest_match a b alo ahi blo bhi =
        ⟨e.1, e.2.1, extendFwd a b bhi e.1 e.2.1 (ahi - (e.1 + e.2.2)) e.2.2⟩ := by
      unfold find_longest_match
      rw [hst]
      rfl
    obtain ⟨f1, f2, f3, f4⟩ := extendFwd_spec a b bhi e.1 e.2.1
      (ahi - (e.1 + e.2.2)) e.2.2 c5
    rw [hm]
    dsimp only
    have hea : e.1 + e.2.2 ≤ ahi := by omega
    have heb : e.2.1 + e.2.2 ≤ bhi := by omega
    constructor
    · intro hk
      refine ⟨c1, c2, by omega, ?_⟩
      rcases f4 with f4 | f4
      · omega
      · exact f4
    · intro t ht
      exact f3 t ht

end FlmFacts

/-! ## The matching blocks form an ordered chain of true common blocks -/

section ChainFacts

variable {α : Type} [DecidableEq α] [Inhabited α]

theorem MBChain_mono {a b : List α} {ca cb ca' cb' ha hb : Nat} {l : List MatchBlock}
    (h : MBChain a b ca cb ha hb l) (h1 : ca' ≤ ca) (h2 : cb' ≤ cb) :
    MBChain a b ca' cb' ha hb l := by
  cases l with
  | nil => exact ⟨le_trans h1 h.1, le_trans h2 h.2⟩
  | cons m rest =>
    obtain ⟨x1, x2, x3, x4, x5⟩ := h
    exact ⟨le_trans h1 x1, le_trans h2 x2, x3, x4, x5⟩

theorem MBChain_append {a b : List α} {ca cb mi mj ha hb : Nat}
    {l1 l2 : List MatchBlock} (h1 : MBChain a b ca cb mi mj l1)
    (h2 : MBChain a b mi mj ha hb l2) :
    MBChain a b ca cb ha hb (l1 ++ l2) := by
  induction l1 generalizing ca cb with
  | nil => exact MBChain_mono h2 h1.1 h1.2
  | cons m rest ih =>
    obtain ⟨x1, x2, x3, x4, x5⟩ := h1
    exact ⟨x1, x2, x3, x4, ih x5⟩

/-- The raw matching-block recursion produces an ordered chain of non-trivial
true common blocks inside the window. -/
theorem mb_chain (a b : List α) :
    ∀ (fuel alo ahi blo bhi : Nat), alo ≤ ahi → blo ≤ bhi →
      MBChain a b alo blo ahi bhi (matchingBlocksF a b fuel alo ahi blo bhi) := by
  intro fuel
  induction fuel with
  | zero => intro alo ahi blo bhi h1 h2; exact ⟨h1, h2⟩
  | succ fuel' ih =>
    intro alo ahi blo bhi h1 h2
    rw [matchingBlocksF]
    by_cases hsz : (find_longest_match a b alo ahi blo bhi).size = 0
    · rw [if_pos hsz]; exact ⟨h1, h2⟩
    · rw [if_neg hsz]
      obtain ⟨hA, hB, hC, hD⟩ :=
        (flm_bounds_match a b alo ahi blo bhi).1 (Nat.pos_of_ne_zero hsz)
      have hmatch := (flm_bounds_match a b alo ahi blo bhi).2
      have hpre : MBChain a b alo blo (find_longest_match a b alo ahi blo bhi).a
          (find_longest_match a b alo ahi blo bhi).b
          (if alo < (find_longest_match a b alo ahi blo bhi).a ∧
              blo < (find_longest_match a b alo ahi blo bhi).b then
            matchingBlocksF a b fuel' alo (find_longest_match a b alo ahi blo bhi).a
              blo (find_longest_match a b alo ahi blo bhi).b
          else []) := by
        by_cases hg : alo < (find_longest_match a b alo ahi blo bhi).a ∧
            blo < (find_longest_match a b alo ahi blo bhi).b
        · rw [if_pos hg]; exact ih alo _ blo _ (le_of_lt hg.1) (le_of_lt hg.2)
        · rw [if_neg hg]; exact ⟨hA, hB⟩
      refine MBChain_append hpre ?_
      refine ⟨le_refl _, le_refl _, Nat.pos_of_ne_zero hsz, hmatch, ?_⟩
      by_cases hg : (find_longest_match a b alo ahi blo bhi).a +
            (find_longest_match a b alo ahi blo bhi).size < ahi ∧
          (find_longest_match a b alo ahi blo bhi).b +
            (find_longest_match a b alo ahi blo bhi).size < bhi
      · rw [if_pos hg]; exact ih _ ahi _ bhi (le_of_lt hg.1) (le_of_lt hg.2)
      · rw [if_neg hg]; exact ⟨hC, hD⟩

/-- The adjacency merge preserves the chain (the pending accumulator `acc` is
a true block placed after the cursor). -/
theorem mergeAdjacent_chain {a b : List α} {ha hb : Nat} :
    ∀ (l : List MatchBlock) (acc : MatchBlock) (ca cb : Nat), ca ≤ acc.a → cb ≤ acc.b →
      (∀ t, t < acc.size → a.getD (acc.a + t) default = b.getD (acc.b + t) default) →
      MBChain a b (acc.a + acc.size) (acc.b + acc.size) ha hb l →
      MBChain a b ca cb ha hb (mergeAdjacent l acc) := by
  intro l
  induction l with
  | nil =>
    intro acc ca cb h1 h2 hm hchain
    rw [mergeAdjacent]
    by_cases hs : acc.size ≠ 0
    · rw [if_pos hs]
      exact ⟨h1, h2, Nat.pos_of_ne_zero hs, hm, hchain.1, hchain.2⟩
    · rw [if_neg hs]
      push_neg at hs
      refine ⟨?_, ?_⟩
      · have := hchain.1; omega
      · have := hchain.2; omega
  | cons blk rest ih =>
    intro acc ca cb h1 h2 hm hchain
    obtain ⟨x1, x2, x3, x4, x5⟩ := hchain
    rw [mergeAdjacent]
    by_cases hadj : acc.a + acc.size = blk.a ∧ acc.b + acc.size = blk.b
    · rw [if_pos hadj]
      refine ih ⟨acc.a, acc.b, acc.size + blk.size⟩ ca cb h1 h2 ?_ ?_
      · intro t ht
        dsimp only at ht ⊢
        by_cases htk : t < acc.size
        · exact hm t htk
        · have hu : t - acc.size < blk.size := by omega
          have := x4 (t - acc.size) hu
          have e1 : acc.a + t = blk.a + (t - acc.size) := by omega
          have e2 : acc.b + t = blk.b + (t - acc.size) := by omega
          rw [e1, e2]
          exact this
      · dsimp only
        have e1 : acc.a + (acc.size + blk.size) = blk.a + blk.size := by omega
        have e2 : acc.b + (acc.size + blk.size) = blk.b + blk.size := by omega
        rw [e1, e2]
        exact x5
    · rw [if_neg hadj]
      by_cases hs : acc.size ≠ 0
      · rw [if_pos hs]
        exact ⟨h1, h2, Nat.pos_of_ne_zero hs, hm,
          ih blk (acc.a + acc.size) (acc.b + acc.size) x1 x2 x4 x5⟩
      · rw [if_neg hs]
        push_neg at hs
        exact ih blk ca cb (by omega) (by omega) x4 x5

/-- Appending the sentinel turns a chain into an exact cover. -/
theorem MBChain_sentinel {a b : List α} {ha hb : Nat} :
    ∀ (l : List MatchBlock) (ca cb : Nat), MBChain a b ca cb ha hb l →
      MBChainTo a b ca cb ha hb (l ++ [⟨ha, hb, 0⟩]) := by
  intro l
  induction l with
  | nil =>
    intro ca cb h
    exact ⟨h.1, h.2, fun t ht => absurd ht (Nat.not_lt_zero t), rfl, rfl⟩
  | cons m rest ih =>
    intro ca cb h
    obtain ⟨x1, x2, _, x4, x5⟩ := h
    exact ⟨x1, x2, x4, ih _ _ x5⟩

/-- The full matching-block list of difflib is an exact cover by true common
blocks. -/
theorem get_matching_blocks_chain (a b : List α) :
    MBChainTo a b 0 0 a.length b.length (get_matching_blocks a b) := by
  unfold get_matching_blocks
  refine MBChain_sentinel _ 0 0 ?_
  refine mergeAdjacent_chain (matchingBlocksRaw a b) ⟨0, 0, 0⟩ 0 0 (le_refl _)
    (le_refl _) (fun t ht => absurd ht (Nat.not_lt_zero t)) ?_
  exact mb_chain a b (a.length + 1) 0 a.length 0 b.length (Nat.zero_le _) (Nat.zero_le _)

/-- Walking an exact cover of true blocks yields a partition of both
sequences into tagged operations. -/
theorem opcodesGo_partition (a b : List α) (la lb : Nat) :
    ∀ (blocks : List MatchBlock) (ci cj : Nat),
      MBChainTo a b ci cj la lb blocks →
      chainCovers la lb ci cj (opcodesGo blocks ci cj) ∧
      ∀ c ∈ opcodesGo blocks ci cj, TagOk a b c := by
  intro blocks
  induction blocks with
  | nil =>
    intro ci cj h
    exact ⟨⟨h.1, h.2⟩, by simp [opcodesGo]⟩
  | cons m rest ih =>
    intro ci cj h
    obtain ⟨h1, h2, hm, hrest⟩ := h
    obtain ⟨ihc, iht⟩ := ih (m.a + m.size) (m.b + m.size) hrest
    rw [opcodesGo]
    have htag_eq : m.size ≠ 0 →
        TagOk a b ⟨Tag.equal, m.a, m.a + m.size, m.b, m.b + m.size⟩ := by
      intro hs
      refine ⟨?_, ?_, ?_⟩ <;> dsimp only
      · omega
      · omega
      · intro t ht
        exact hm t (by omega)
    by_cases hga : ci < m.a <;> by_cases hgb : cj < m.b <;>
      by_cases hsz : m.size ≠ 0
    · -- replace gap, equal block
      rw [if_pos ⟨hga, hgb⟩, if_pos hsz]
      simp only [List.cons_append, List.singleton_append]
      refine ⟨⟨rfl, rfl, by dsimp only; omega, by dsimp only; omega, rfl, rfl,
        by dsimp only; omega, by dsimp only; omega, ihc⟩, ?_⟩
      intro c hc
      rcases List.mem_cons.mp hc with rfl | hc
      · exact ⟨hga, hgb⟩
      rcases List.mem_cons.mp hc with rfl | hc
      · exact htag_eq hsz
      · exact iht c hc
    · -- replace gap, no equal block
      rw [if_pos ⟨hga, hgb⟩, if_neg hsz]
      push_neg at hsz
      simp only [List.cons_append, List.singleton_append, List.nil_append]
      rw [hsz] at ihc ⊢
      refine ⟨⟨rfl, rfl, by dsimp only; omega, by dsimp only; omega,
        by simpa using ihc⟩, ?_⟩
      intro c hc
      rcases List.mem_cons.mp hc with rfl | hc
      · exact ⟨hga, hgb⟩
      · exact iht c (by simpa [hsz] using hc)
    · -- delete gap, equal block
      rw [if_neg (by tauto), if_pos hga, if_pos hsz]
      simp only [List.cons_append, List.singleton_append]
      have hcjb : cj = m.b := by omega
      refine ⟨⟨rfl, rfl, by dsimp only; omega, by dsimp only; omega, rfl, rfl,
        by dsimp only; omega, by dsimp only; omega, ihc⟩, ?_⟩
      intro c hc
      rcases List.mem_cons.mp hc with rfl | hc
      · exact ⟨hcjb, hga⟩
      rcases List.mem_cons.mp hc with rfl | hc
      · exact htag_eq hsz
      · exact iht c hc
    · -- delete gap, no equal block
      rw [if_neg (by tauto), if_pos hga, if_neg hsz]
      push_neg at hsz
      have hcjb : cj = m.b := by omega
      simp only [List.cons_append, List.singleton_append, List.nil_append]
      rw [hsz] at ihc ⊢
      refine ⟨⟨rfl, rfl, by dsimp only; omega, by dsimp only; omega,
        by simpa using ihc⟩, ?_⟩
      intro c hc
      rcases List.mem_cons.mp hc with rfl | hc
      · exact ⟨hcjb, hga⟩
      · exact iht c (by simpa [hsz] using hc)
    · -- insert gap, equal block
      rw [if_neg (by tauto), if_neg hga, if_pos hgb, if_pos hsz]
      simp only [List.cons_append, List.singleton_append]
      have hcia : ci = m.a := by omega
      refine ⟨⟨rfl, rfl, by dsimp only; omega, by dsimp only; omega, rfl, rfl,
        by dsimp only; omega, by dsimp only; omega, ihc⟩, ?_⟩
      intro c hc
      rcases List.mem_cons.mp hc with rfl | hc
      · exact ⟨hcia, hgb⟩
      rcases List.mem_cons.mp hc with rfl | hc
      · exact htag_eq hsz
      · exact iht c hc
    · -- insert gap, no equal block
      rw [if_neg (by tauto), if_neg hga, if_pos hgb, if_neg hsz]
      push_neg at hsz
      have hcia : ci = m.a := by omega
      simp only [List.cons_append, List.singleton_append, List.nil_append]
      rw [hsz] at ihc ⊢
      refine ⟨⟨rfl, rfl, by dsimp only; omega, by dsimp only; omega,
        by simpa using ihc⟩, ?_⟩
      intro c hc
      rcases List.mem_cons.mp hc with rfl | hc
      · exact ⟨hcia, hgb⟩
      · exact iht c (by simpa [hsz] using hc)
    · -- no gap, equal block
      rw [if_neg (by tauto), if_neg hga, if_neg hgb, if_pos hsz]
      have hcia : ci = m.a := by omega
      have hcjb : cj = m.b := by omega
      simp only [List.nil_append, List.singleton_append]
      subst hcia; subst hcjb
      refine ⟨⟨rfl, rfl, by dsimp only; omega, by dsimp only; omega, ihc⟩, ?_⟩
      intro c hc
      rcases List.mem_cons.mp hc with rfl | hc
      · exact htag_eq hsz
      · exact iht c hc
    · -- no gap, no equal block
      rw [if_neg (by tauto), if_neg hga, if_neg hgb, if_neg hsz]
      push_neg at hsz
      have e1 : m.a + m.size = ci := by omega
      have e2 : m.b + m.size = cj := by omega
      simp only [List.nil_append]
      rw [e1, e2] at ihc iht ⊢
      exact ⟨ihc, iht⟩

/-- The opcodes of one alignment run always form a total partition of both
input sequences. -/
theorem opcodes_partition (a b : List α) : OpsPartition a b (get_opcodes a b) := by
  have := opcodesGo_partition a b a.length b.length (get_matching_blocks a b) 0 0
    (get_matching_blocks_chain a b)
  exact ⟨this.1, this.2⟩

end ChainFacts

/-- Claim C1: the ordered operation list of one alignment run — line-level
(the raw opcodes `compute_diff` filters) or character-level
(`compute_inline_diff`) — is a total partition of both sequences: ranges are
contiguous, non-overlapping, strictly forward, cover `[0, len A)` and
`[0, len B)` exactly (`chainCovers`), `equal` operations have equal-length
ranges over pairwise identical elements, `insert` has an empty A-range,
`delete` an empty B-range, `replace` two non-empty ranges (`TagOk`). -/
theorem claim_C1_partition :
    (∀ text_a text_b : List Nat,
      OpsPartition (splitlines text_a) (splitlines text_b)
        (get_opcodes (splitlines text_a) (splitlines text_b))) ∧
    (∀ text1 text2 : List Nat,
      OpsPartition text1 text2 (compute_inline_diff text1 text2)) :=
  ⟨fun _ _ => opcodes_partition _ _, fun t1 t2 => opcodes_partition t1 t2⟩

/-- Witness for C1 at a concrete character-level pair. -/
theorem claim_C1_partition_witness :
    OpsPartition ([1, 2] : List Nat) [1, 3] (compute_inline_diff [1, 2] [1, 3]) :=
  claim_C1_partition.2 [1, 2] [1, 3]

/-! ## Inline Highlighter main path (C6) -/

theorem renderOps_flatten (line : List Nat) :
    ∀ ops : List DiffChunk,
      (renderOps line ops).flatten = (ops.map (inlineRender line)).flatten := by
  intro ops
  induction ops with
  | nil => rfl
  | cons c rest ih =>
    obtain ⟨tag, a1, a2, b1, b2⟩ := c
    cases tag <;> simp [renderOps, inlineRender, ih]

theorem renderOps_ne_nil (line : List Nat) :
    ∀ ops : List DiffChunk, (∃ c ∈ ops, c.tag ≠ Tag.insert) →
      renderOps line ops ≠ [] := by
  intro ops
  induction ops with
  | nil => rintro ⟨c, hc, _⟩; exact absurd hc (by simp)
  | cons c rest ih =>
    rintro ⟨d, hd, hdt⟩
    obtain ⟨tag, a1, a2, b1, b2⟩ := c
    cases tag
    · simp [renderOps]
    · simp [renderOps]
    · simp [renderOps]
    · rcases List.mem_cons.mp hd with rfl | hd'
      · exact absurd rfl hdt
      · simpa [renderOps] using ih ⟨d, hd', hdt⟩

/-- A partition of a non-empty A-side contains a non-insert operation. -/
theorem exists_non_insert {α : Type} [Inhabited α] {a b : List α} {la lb : Nat} :
    ∀ (ops : List DiffChunk) (ca cb : Nat), chainCovers la lb ca cb ops →
      (∀ c ∈ ops, TagOk a b c) → ca < la → ∃ c ∈ ops, c.tag ≠ Tag.insert := by
  intro ops
  induction ops with
  | nil =>
    intro ca cb hcov _ hlt
    exact absurd hcov.1 (by omega)
  | cons c rest ih =>
    intro ca cb hcov htags hlt
    obtain ⟨x1, x2, x3, x4, x5⟩ := hcov
    by_cases htag : c.tag = Tag.insert
    · have hins := htags c (List.mem_cons_self _ _)
      rw [TagOk, htag] at hins
      obtain ⟨he, _⟩ := hins
      obtain ⟨d, hd, hdt⟩ := ih c.end_a c.end_b x5
        (fun d hd => htags d (List.mem_cons_of_mem _ hd)) (by omega)
      exact ⟨d, List.mem_cons_of_mem _ hd, hdt⟩
    · exact ⟨c, List.mem_cons_self _ _, htag⟩

/-- Claim C6: when character-level alignment runs (`is_changed` true, both
lines non-empty, combined length within the budget), the rendered line is the
concatenation, over the alignment's operations, of: the escaped slice of
`line` for `equal`, the escaped slice wrapped in the (unescaped) changed
marker for `replace` and `delete`, and nothing for `insert` — exactly the
spec's `inlineRender` mapping, in which escaping is applied to the literal
text before the marker is wrapped around it. -/
theorem claim_C6_inline_mapping (line other_line : List Nat)
    (h1 : line ≠ []) (h2 : other_line ≠ [])
    (h3 : line.length + other_line.length ≤ 20480) :
    format_line_with_inline_diff line other_line true =
      ((compute_inline_diff line other_line).map (inlineRender line)).flatten := by
  unfold format_line_with_inline_diff
  rw [if_neg (by simp [h1, h2]),
    if_neg (by rw [(by decide : INLINE_HIGHLIGHT_LIMIT = 20480)]; omega)]
  have hpart := opcodes_partition line other_line
  have hlen : line.length ≠ 0 := fun h => h1 (List.length_eq_zero.mp h)
  have hex : ∃ c ∈ compute_inline_diff line other_line, c.tag ≠ Tag.insert :=
    exists_non_insert (a := line) (b := other_line) _ 0 0 hpart.1 hpart.2 (by omega)
  have hne := renderOps_ne_nil line _ hex
  simp only []
  rw [if_neg hne]
  exact renderOps_flatten line _

/-- Witness for C6 at `"hello"` vs `"hallo"`. -/
theorem claim_C6_inline_mapping_witness :
    format_line_with_inline_diff (codes "hello") (codes "hallo") true =
      ((compute_inline_diff (codes "hello") (codes "hallo")).map
        (inlineRender (codes "hello"))).flatten :=
  claim_C6_inline_mapping (codes "hello") (codes "hallo") (by decide) (by decide)
    (by decide)

/-! ## Identity runs (C9): the scan best lies on the diagonal -/

section DiagFacts

variable {α : Type} [DecidableEq α] [Inhabited α]

theorem chainLen_pos_of_visited {a b : List α} {alo blo bhi i j : Nat}
    (h : visitedB a b blo bhi i j = true) :
    0 < chainLen a b alo blo bhi i j := by
  cases i with
  | zero => rw [chainLen, if_pos h]; omega
  | succ i' => rw [chainLen, if_pos h]; omega

theorem visitedB_mem {a b : List α} {blo bhi i j : Nat}
    (h : visitedB a b blo bhi i j = true) :
    j ∈ b2jIdx b (a.getD i default) := by
  unfold visitedB at h
  simp only [Bool.and_eq_true, decide_eq_true_eq] at h
  exact h.2

theorem b2jIdx_not_popular {b : List α} {x : α} {j : Nat} (h : j ∈ b2jIdx b x) :
    isPopular b x = false := by
  unfold b2jIdx at h
  by_cases hp : isPopular b x
  · rw [if_pos hp] at h; exact absurd h (by simp)
  · simpa using hp

/-- On the diagonal run over identical sequences with a symmetric window, any
off-diagonal visited position is dominated by an earlier diagonal one. -/
theorem chain_diag_dominates (a : List α) (alo ahi : Nat) (hahi : ahi ≤ a.length) :
    ∀ p : Nat × Nat, p ∈ scanPos a a alo ahi alo ahi → p.1 ≠ p.2 →
      ∃ q : Nat × Nat, q ∈ scanPos a a alo ahi alo ahi ∧ lexLt q p ∧
        chainF a a alo alo ahi p ≤ chainF a a alo alo ahi q := by
  intro p hp hne
  obtain ⟨hrlo, hrhi, hvis⟩ := mem_scanPos.mp hp
  have hv2 := visitedB_spec hvis
  set m := min p.1 p.2 with hm
  set d := chainF a a alo alo ahi p with hd
  have hdpos : 0 < d := chainLen_pos_of_visited hvis
  have hrow : alo + d ≤ p.1 + 1 := chainLen_le_row p.1 p.2 hrlo
  have hcol : alo + d ≤ p.2 + 1 := chainLen_le_col hdpos
  have hmlo : alo ≤ m := le_min hrlo hv2.1
  have hmhi : m < ahi := lt_of_le_of_lt (min_le_left _ _) hrhi
  have hdiagvis : ∀ t, t < d → visitedB a a alo ahi (m - t) (m - t) = true := by
    intro t ht
    have hlink : visitedB a a alo ahi (p.1 - t) (p.2 - t) = true :=
      chainLen_links p.1 p.2 t ht
    obtain ⟨hl1, hl2, hl3, hl4⟩ := visitedB_spec hlink
    have hmem := visitedB_mem hlink
    have hpop : isPopular a (a.getD (p.1 - t) default) = false := b2jIdx_not_popular hmem
    have hval : a.getD (m - t) default = a.getD (p.1 - t) default := by
      rcases Nat.le_total p.1 p.2 with hle | hle
      · rw [hm, min_eq_left hle]
      · rw [hm, min_eq_right hle]; exact hl4
    have hlen : m - t < a.length := by omega
    unfold visitedB
    simp only [Bool.and_eq_true, decide_eq_true_eq]
    refine ⟨⟨by omega, by omega⟩, ?_⟩
    rw [hval]
    unfold b2jIdx
    rw [if_neg (by rw [hpop]; exact Bool.false_ne_true)]
    exact mem_occurrences.mpr ⟨hlen, hval⟩
  have hge : d ≤ chainF a a alo alo ahi (m, m) :=
    chainLen_ge d m m hdiagvis (by omega) (by omega)
  have hqmem : (m, m) ∈ scanPos a a alo ahi alo ahi := by
    refine mem_scanPos.mpr ⟨hmlo, hmhi, ?_⟩
    simpa using hdiagvis 0 hdpos
  have hlex : lexLt (m, m) p := by
    rcases Nat.lt_or_ge p.1 p.2 with h | h
    · have hm1 : m = p.1 := by rw [hm, min_eq_left (le_of_lt h)]
      exact Or.inr ⟨hm1, by omega⟩
    · have hm2 : m = p.2 := by rw [hm, min_eq_right h]
      exact Or.inl (by omega)
  exact ⟨(m, m), hqmem, hlex, hge⟩

/-- On identical sequences and a symmetric non-empty window,
`find_longest_match` returns the whole window. -/
theorem flm_diag (a : List α) (alo ahi : Nat) (hahi : ahi ≤ a.length)
    (hlt : alo < ahi) :
    find_longest_match a a alo ahi alo ahi = ⟨alo, alo, ahi - alo⟩ := by
  rcases flm_scan_cases a a alo ahi alo ahi with hst | ⟨p, hp, hpos, hst, hmax, hfirst⟩
  · have hback : extendBack a a alo alo alo alo 0 = (alo, alo, 0) :=
      extendBack_noop a a alo alo alo alo 0 (fun h => Nat.lt_irrefl _ h.1)
    have hm : find_longest_match a a alo ahi alo ahi =
        ⟨alo, alo, extendFwd a a ahi alo alo (ahi - (alo + 0)) 0⟩ := by
      unfold find_longest_match
      rw [hst]
      simp only [hback]
    rw [hm, extendFwd_diag a ahi alo (ahi - (alo + 0)) 0 (by omega)]
    have : 0 + (ahi - (alo + 0)) = ahi - alo := by omega
    rw [this]
  · have hdiag : p.1 = p.2 := by
      by_contra hne
      obtain ⟨q, hq, hqlex, hqge⟩ := chain_diag_dominates a alo ahi hahi p hp hne
      exact absurd hqge (by
        have := hfirst q hq hqlex
        omega)
    obtain ⟨hrlo, hrhi, hvis⟩ := mem_scanPos.mp hp
    set L := chainF a a alo alo ahi p with hL
    have hrow : alo + L ≤ p.1 + 1 := chainLen_le_row p.1 p.2 hrlo
    have hback : extendBack a a alo alo (p.1 + 1 - L) (p.2 + 1 - L) L =
        (alo, alo, L + (p.1 + 1 - L - alo)) := by
      rw [← hdiag]
      exact extendBack_diag a alo (p.1 + 1 - L) L (by omega)
    have hm : find_longest_match a a alo ahi alo ahi =
        ⟨alo, alo, extendFwd a a ahi alo alo
          (ahi - (alo + (L + (p.1 + 1 - L - alo)))) (L + (p.1 + 1 - L - alo))⟩ := by
      unfold find_longest_match
      rw [hst]
      simp only [mkEnd, hback]
    rw [hm, extendFwd_diag a ahi alo _ _ (by omega)]
    have : L + (p.1 + 1 - L - alo) + (ahi - (alo + (L + (p.1 + 1 - L - alo)))) =
        ahi - alo := by omega
    rw [this]

end DiagFacts

section SelfDiff

variable {α : Type} [DecidableEq α] [Inhabited α]

/-- Aligning any sequence with itself yields a single whole-length `equal`
operation (or nothing when empty), so the non-equal chunk list is empty. -/
theorem diff_self_chunks (l : List α) : chunksFilterGo (get_opcodes l l) = [] := by
  by_cases hl : l.length = 0
  · have h0 : l = [] := List.length_eq_zero.mp hl
    subst h0
    rfl
  · have hpos : 0 < l.length := Nat.pos_of_ne_zero hl
    have hflm := flm_diag l 0 l.length (le_refl _) hpos
    have hraw : matchingBlocksRaw l l = [⟨0, 0, l.length⟩] := by
      unfold matchingBlocksRaw
      rw [matchingBlocksF, hflm]
      simp [hl]
    have hblocks : get_matching_blocks l l =
        [⟨0, 0, l.length⟩, ⟨l.length, l.length, 0⟩] := by
      unfold get_matching_blocks
      rw [hraw, mergeAdjacent, if_pos ⟨rfl, rfl⟩, mergeAdjacent,
        if_pos (by simp [hl])]
      simp
    have hops : get_opcodes l l = [⟨Tag.equal, 0, l.length, 0, l.length⟩] := by
      unfold get_opcodes
      rw [hblocks]
      simp [opcodesGo, hl]
    rw [hops]
    simp [chunksFilterGo]

end SelfDiff

/-- Claim C9: diffing any text against itself produces no chunks. -/
theorem claim_C9_identity : ∀ text : List Nat, compute_diff text text = [] := by
  intro text
  unfold compute_diff
  exact diff_self_chunks (splitlines text)

/-! ## Trailing newline (C10) -/

/-- Appending `"\n"` to a non-empty text whose last unit is not a line break
other than `\r` does not change its line splitting. -/
theorem splitlinesAux_append_newline :
    ∀ (t acc : List Nat), t ≠ [] →
      (∀ c, t.getLast? = some c →
        c ∉ ([10, 11, 12, 28, 29, 30, 133, 8232, 8233] : List Nat)) →
      splitlinesAux (t ++ [10]) acc = splitlinesAux t acc := by
  intro t acc
  induction t, acc using splitlinesAux.induct with
  | case1 acc hacc => intro hne _; exact absurd rfl hne
  | case2 acc hacc => intro hne _; exact absurd rfl hne
  | case3 rest acc ih =>
    intro _ hlast
    cases rest with
    | nil => exact absurd (hlast 10 (by simp)) (by decide)
    | cons r rs =>
      rw [show (13 :: 10 :: (r :: rs)) ++ [10] = 13 :: 10 :: ((r :: rs) ++ [10])
        from rfl]
      rw [splitlinesAux.eq_2, splitlinesAux.eq_2]
      congr 1
      refine ih (by simp) ?_
      intro x hx
      refine hlast x ?_
      rw [List.getLast?_cons_cons, List.getLast?_cons_cons]
      exact hx
  | case4 c rest acc hg hc ih =>
    intro _ hlast
    cases rest with
    | nil =>
      have hc13 : c = 13 := by
        have hforb := hlast c (by simp)
        simp [lineBreaks] at hc
        simp at hforb
        omega
      subst hc13
      rw [show ([13] ++ [10] : List Nat) = 13 :: 10 :: [] from rfl,
        splitlinesAux.eq_2,
        splitlinesAux.eq_3 _ _ _ (by intro r1 _ h2; cases h2),
        if_pos (by decide : (13 : Nat) ∈ lineBreaks)]
    | cons r rs =>
      have hg' : ∀ r1, c = 13 → (r :: rs) ++ [10] = 10 :: r1 → False := by
        intro r1 h13 heq
        have hr : r = 10 := by injection heq
        exact hg rs h13 (by rw [hr])
      rw [show ((c :: (r :: rs)) ++ [10] : List Nat) = c :: ((r :: rs) ++ [10])
        from rfl]
      rw [splitlinesAux.eq_3 _ _ _ hg', if_pos hc,
        splitlinesAux.eq_3 _ _ _ hg, if_pos hc]
      congr 1
      refine ih (by simp) ?_
      intro x hx
      refine hlast x ?_
      rw [List.getLast?_cons_cons]
      exact hx
  | case5 c rest acc hg hc ih =>
    intro _ hlast
    have hc13 : c ≠ 13 := fun h => hc (h ▸ (by decide : (13 : Nat) ∈ lineBreaks))
    cases rest with
    | nil =>
      rw [show ([c] ++ [10] : List Nat) = c :: [10] from rfl,
        splitlinesAux.eq_3 _ _ _ (fun r1 h13 _ => absurd h13 hc13), if_neg hc,
        splitlinesAux.eq_3 _ _ _ (fun r1 h13 h2 => absurd h13 (by decide)),
        if_pos (by decide : (10 : Nat) ∈ lineBreaks),
        splitlinesAux.eq_3 _ _ _ hg, if_neg hc]
      rfl
    | cons r rs =>
      rw [show ((c :: (r :: rs)) ++ [10] : List Nat) = c :: ((r :: rs) ++ [10])
        from rfl,
        splitlinesAux.eq_3 _ _ _ (fun r1 h13 _ => absurd h13 hc13), if_neg hc,
        splitlinesAux.eq_3 _ _ _ hg, if_neg hc]
      refine ih (by simp) ?_
      intro x hx
      refine hlast x ?_
      rw [List.getLast?_cons_cons]
      exact hx

/-- Counterexample for C10 as stated: for the empty text,
`compute_diff("", "\n")` is not empty (splitting gives `[]` versus `[""]`,
an insert chunk). -/
theorem claim_C10_counterexample :
    ¬(compute_diff [] ([] ++ [10]) = [] ∧
      compute_diff (([] : List Nat) ++ [10]) [] = []) := by
  decide

/-- Claim C10, amended: `compute_diff` is insensitive to one appended `"\n"`
for every non-empty text whose last unit is not a line terminator other than
carriage return (for the empty text, or a text already ending in a terminator
other than `\r`, appending `"\n"` adds a line and the diff is non-empty). -/
theorem claim_C10_trailing_newline (t : List Nat) (hne : t ≠ [])
    (hlast : ∀ c, t.getLast? = some c →
      c ∉ ([10, 11, 12, 28, 29, 30, 133, 8232, 8233] : List Nat)) :
    compute_diff t (t ++ [10]) = [] ∧ compute_diff (t ++ [10]) t = [] := by
  have hsplit : splitlines (t ++ [10]) = splitlines t :=
    splitlinesAux_append_newline t [] hne hlast
  constructor
  · unfold compute_diff
    rw [hsplit]
    exact diff_self_chunks _
  · unfold compute_diff
    rw [hsplit]
    exact diff_self_chunks _

/-- Witness for C10 (amended) at `t = "a"`. -/
theorem claim_C10_trailing_newline_witness :
    compute_diff [97] ([97] ++ [10]) = [] ∧ compute_diff ([97] ++ [10]) [97] = [] :=
  claim_C10_trailing_newline [97] (by decide) (fun c hc => by
    simp at hc
    subst hc
    decide)

/-! ## The reference recursion (C2): run-length lemmas -/

section RunLen

variable {α : Type} [DecidableEq α] [Inhabited α]

theorem runLenF_le (a b : List α) (bhi : Nat) :
    ∀ rem i j, runLenF a b bhi rem i j ≤ rem := by
  intro rem
  induction rem with
  | zero => intro i j; exact le_refl _
  | succ rem' ih =>
    intro i j
    rw [runLenF]
    by_cases hc : j < bhi ∧ a.getD i default = b.getD j default
    · rw [if_pos hc]
      have := ih (i + 1) (j + 1)
      omega
    · rw [if_neg hc]; omega

theorem runLenF_win (a b : List α) (bhi : Nat) :
    ∀ rem i j t, t < runLenF a b bhi rem i j → j + t < bhi := by
  intro rem
  induction rem with
  | zero => intro i j t ht; rw [runLenF] at ht; omega
  | succ rem' ih =>
    intro i j t ht
    rw [runLenF] at ht
    by_cases hc : j < bhi ∧ a.getD i default = b.getD j default
    · rw [if_pos hc] at ht
      cases t with
      | zero => omega
      | succ t' =>
        have := ih (i + 1) (j + 1) t' (by omega)
        omega
    · rw [if_neg hc] at ht; omega

theorem runLenF_match (a b : List α) (bhi : Nat) :
    ∀ rem i j t, t < runLenF a b bhi rem i j →
      a.getD (i + t) default = b.getD (j + t) default := by
  intro rem
  induction rem with
  | zero => intro i j t ht; rw [runLenF] at ht; omega
  | succ rem' ih =>
    intro i j t ht
    rw [runLenF] at ht
    by_cases hc : j < bhi ∧ a.getD i default = b.getD j default
    · rw [if_pos hc] at ht
      cases t with
      | zero => simpa using hc.2
      | succ t' =>
        have := ih (i + 1) (j + 1) t' (by omega)
        have e1 : i + (t' + 1) = i + 1 + t' := by omega
        have e2 : j + (t' + 1) = j + 1 + t' := by omega
        rw [e1, e2]
        exact this
    · rw [if_neg hc] at ht; omega

theorem runLenF_ge (a b : List α) (bhi : Nat) :
    ∀ L rem i j, L ≤ rem →
      (∀ t, t < L → j + t < bhi ∧ a.getD (i + t) default = b.getD (j + t) default) →
      L ≤ runLenF a b bhi rem i j := by
  intro L
  induction L with
  | zero => intro rem i j _ _; exact Nat.zero_le _
  | succ L' ih =>
    intro rem i j hrem hall
    cases rem with
    | zero => omega
    | succ rem' =>
      rw [runLenF, if_pos (by simpa using hall 0 (by omega))]
      have hsub : L' ≤ runLenF a b bhi rem' (i + 1) (j + 1) := by
        refine ih rem' (i + 1) (j + 1) (by omega) ?_
        intro t ht
        have := hall (t + 1) (by omega)
        have e1 : i + (t + 1) = i + 1 + t := by omega
        have e2 : j + (t + 1) = j + 1 + t := by omega
        rw [e1, e2] at this
        exact ⟨by omega, this.2⟩
      omega

theorem runLenF_stop (a b : List α) (bhi : Nat) :
    ∀ rem i j, runLenF a b bhi rem i j < rem →
      ¬(j + runLenF a b bhi rem i j < bhi ∧
        a.getD (i + runLenF a b bhi rem i j) default =
          b.getD (j + runLenF a b bhi rem i j) default) := by
  intro rem
  induction rem with
  | zero => intro i j h; omega
  | succ rem' ih =>
    intro i j h
    rw [runLenF] at h ⊢
    by_cases hc : j < bhi ∧ a.getD i default = b.getD j default
    · rw [if_pos hc] at h ⊢
      have hlt : runLenF a b bhi rem' (i + 1) (j + 1) < rem' := by omega
      have := ih (i + 1) (j + 1) hlt
      intro hcon
      refine this ⟨by omega, ?_⟩
      have e1 : i + 1 + runLenF a b bhi rem' (i + 1) (j + 1) =
          i + (runLenF a b bhi rem' (i + 1) (j + 1) + 1) := by omega
      have e2 : j + 1 + runLenF a b bhi rem' (i + 1) (j + 1) =
          j + (runLenF a b bhi rem' (i + 1) (j + 1) + 1) := by omega
      rw [e1, e2]
      exact hcon.2
    · rw [if_neg hc] at h ⊢
      intro hcon
      exact hc (by simpa using hcon)

end RunLen

/-! ## C2: the scan agrees with the reference search when autojunk is idle -/

section C2Bridge

variable {α : Type} [DecidableEq α] [Inhabited α]

/-- If no element of `b` is popular then no element at all is (an absent
element has no occurrences). -/
theorem isPopular_false_forall {b : List α} (h : ∀ x ∈ b, isPopular b x = false) :
    ∀ x, isPopular b x = false := by
  intro x
  by_cases hx : x ∈ b
  · exact h x hx
  · have hocc : occurrences b x = [] := by
      rw [List.eq_nil_iff_forall_not_mem]
      intro j hj
      obtain ⟨hjl, hjx⟩ := mem_occurrences.mp hj
      rw [List.getD_eq_getElem b default hjl] at hjx
      exact hx (hjx ▸ List.getElem_mem hjl)
    unfold isPopular
    rw [hocc]
    simp

/-- With autojunk idle and the window inside `b`, visiting `(i, j)` is exactly
a window match. -/
theorem visitedB_iff {a b : List α} {blo bhi i j : Nat}
    (hnp : ∀ x ∈ b, isPopular b x = false) (hbl : bhi ≤ b.length) :
    visitedB a b blo bhi i j = true ↔
      blo ≤ j ∧ j < bhi ∧ b.getD j default = a.getD i default := by
  constructor
  · intro h
    obtain ⟨h1, h2, _, h4⟩ := visitedB_spec h
    exact ⟨h1, h2, h4⟩
  · rintro ⟨h1, h2, h3⟩
    unfold visitedB
    simp only [Bool.and_eq_true, decide_eq_true_eq]
    refine ⟨⟨h1, h2⟩, ?_⟩
    unfold b2jIdx
    rw [if_neg (by rw [isPopular_false_forall hnp]; exact Bool.false_ne_true)]
    exact mem_occurrences.mpr ⟨by omega, h3⟩

/-- A chain ending at `(i, j)` gives a run at its start position of at least
the same length (no junk hypotheses needed: visits are window matches). -/
theorem chain_le_runLen {a b : List α} {alo blo bhi : Nat} {i j : Nat}
    (hi : alo ≤ i) (ahi : Nat) (hia : i < ahi)
    (hpos : 0 < chainLen a b alo blo bhi i j) :
    chainLen a b alo blo bhi i j ≤
      runLen a b ahi bhi (i + 1 - chainLen a b alo blo bhi i j)
        (j + 1 - chainLen a b alo blo bhi i j) := by
  have hrow : alo + chainLen a b alo blo bhi i j ≤ i + 1 := chainLen_le_row i j hi
  have hcol0 : chainLen a b alo blo bhi i j ≤ j + 1 := chainLen_le_colmax i j
  unfold runLen
  refine runLenF_ge a b bhi _ _ _ _ (by omega) ?_
  intro t ht
  have hu : chainLen a b alo blo bhi i j - 1 - t < chainLen a b alo blo bhi i j := by
    omega
  have hv := chainLen_links i j (chainLen a b alo blo bhi i j - 1 - t) hu
  obtain ⟨_, hb2, _, hb4⟩ := visitedB_spec hv
  have e1 : i - (chainLen a b alo blo bhi i j - 1 - t) =
      i + 1 - chainLen a b alo blo bhi i j + t := by omega
  have e2 : j - (chainLen a b alo blo bhi i j - 1 - t) =
      j + 1 - chainLen a b alo blo bhi i j + t := by omega
  rw [e1] at hb4
  rw [e2] at hb2 hb4
  exact ⟨hb2, hb4.symm⟩

/-- With autojunk idle, a run starting at `(s, t)` inside the window gives a
chain at its end position of at least the same length. -/
theorem runLen_le_chain {a b : List α} {alo blo bhi : Nat}
    (hnp : ∀ x ∈ b, isPopular b x = false) (hbl : bhi ≤ b.length)
    {s t : Nat} (hs : alo ≤ s) (ht : blo ≤ t) (ahi : Nat) :
    runLen a b ahi bhi s t ≤
      chainLen a b alo blo bhi (s + runLen a b ahi bhi s t - 1)
        (t + runLen a b ahi bhi s t - 1) := by
  rcases Nat.eq_zero_or_pos (runLen a b ahi bhi s t) with h0 | hpos
  · rw [h0]
    exact Nat.zero_le _
  · refine chainLen_ge _ _ _ ?_ (by omega) (by omega)
    intro u hu
    have hvlt : runLen a b ahi bhi s t - 1 - u < runLen a b ahi bhi s t := by omega
    unfold runLen at hvlt
    have hwin := runLenF_win a b bhi (ahi - s) s t _ hvlt
    have hm := runLenF_match a b bhi (ahi - s) s t _ hvlt
    have e1 : s + runLen a b ahi bhi s t - 1 - u =
        s + (runLen a b ahi bhi s t - 1 - u) := by omega
    have e2 : t + runLen a b ahi bhi s t - 1 - u =
        t + (runLen a b ahi bhi s t - 1 - u) := by omega
    rw [e1, e2]
    refine (visitedB_iff hnp hbl).mpr ⟨by omega, ?_, hm.symm⟩
    unfold runLen
    exact hwin

end C2Bridge

section C2Spec

variable {α : Type} [DecidableEq α] [Inhabited α]

/-- At the far end of a chain the scan found a break: the chain reaches row
`alo`, or column 0, or the diagonally preceding position is unvisited. -/
theorem chainLen_break {a b : List α} {alo blo bhi : Nat} :
    ∀ i j, alo ≤ i → 0 < chainLen a b alo blo bhi i j →
      i + 1 - chainLen a b alo blo bhi i j = alo ∨
      j + 1 - chainLen a b alo blo bhi i j = 0 ∨
      visitedB a b blo bhi (i - chainLen a b alo blo bhi i j)
        (j - chainLen a b alo blo bhi i j) = false := by
  intro i
  induction i with
  | zero =>
    intro j halo hpos
    have hv := visitedB_of_chain_pos hpos
    rw [chainLen, if_pos hv]
    left
    omega
  | succ i' ih =>
    intro j halo hpos
    have hv := visitedB_of_chain_pos hpos
    rw [chainLen, if_pos hv]
    by_cases hz : i' + 1 = alo ∨ j = 0
    · rw [if_pos hz]
      rcases hz with hz | hz
      · left; omega
      · right; left; omega
    · rw [if_neg hz]
      rcases Nat.eq_zero_or_pos (chainLen a b alo blo bhi i' (j - 1)) with h0 | hpos'
      · right; right
        rw [h0]
        have e1 : i' + 1 - (0 + 1) = i' := by omega
        have e2 : j - (0 + 1) = j - 1 := by omega
        rw [e1, e2]
        cases hvt : visitedB a b blo bhi i' (j - 1) with
        | false => rfl
        | true =>
          have hcp : 0 < chainLen a b alo blo bhi i' (j - 1) :=
            chainLen_pos_of_visited hvt
          omega
      · rcases ih (j - 1) (by omega) hpos' with hc | hc | hc
        · left; omega
        · right; left; omega
        · right; right
          have e1 : i' + 1 - (chainLen a b alo blo bhi i' (j - 1) + 1) =
              i' - chainLen a b alo blo bhi i' (j - 1) := by omega
          have e2 : j - (chainLen a b alo blo bhi i' (j - 1) + 1) =
              j - 1 - chainLen a b alo blo bhi i' (j - 1) := by omega
          rw [e1, e2]
          exact hc

theorem lexLt_trichotomy (u v : Nat × Nat) : lexLt u v ∨ u = v ∨ lexLt v u := by
  obtain ⟨u1, u2⟩ := u
  obtain ⟨v1, v2⟩ := v
  unfold lexLt
  simp only [Prod.mk.injEq]
  omega

theorem mem_rectPositions {alo ahi blo bhi : Nat} {p : Nat × Nat} :
    p ∈ rectPositions alo ahi blo bhi ↔
      alo ≤ p.1 ∧ p.1 < ahi ∧ blo ≤ p.2 ∧ p.2 < bhi := by
  unfold rectPositions
  rw [List.mem_flatMap]
  constructor
  · rintro ⟨i, hi, hp⟩
    rw [List.mem_map] at hp
    obtain ⟨j, hj, rfl⟩ := hp
    rw [List.mem_range'_1] at hi hj
    exact ⟨hi.1, by omega, hj.1, by omega⟩
  · rintro ⟨h1, h2, h3, h4⟩
    refine ⟨p.1, List.mem_range'_1.mpr ⟨h1, by omega⟩, ?_⟩
    rw [List.mem_map]
    exact ⟨p.2, List.mem_range'_1.mpr ⟨h3, by omega⟩, rfl⟩

theorem rectPositions_sorted (alo ahi blo bhi : Nat) :
    (rectPositions alo ahi blo bhi).Pairwise lexLt := by
  unfold rectPositions
  rw [List.flatMap_def, List.pairwise_flatten]
  constructor
  · intro l hl
    rw [List.mem_map] at hl
    obtain ⟨i, _, rfl⟩ := hl
    rw [List.pairwise_map]
    exact (List.pairwise_lt_range' _ _).imp (fun h => Or.inr ⟨rfl, h⟩)
  · have hr : (List.range' alo (ahi - alo)).Pairwise (· < ·) :=
      List.pairwise_lt_range' _ _
    rw [List.pairwise_map]
    refine hr.imp ?_
    intro i i' hii x hx y hy
    rw [List.mem_map] at hx hy
    obtain ⟨j, _, rfl⟩ := hx
    obtain ⟨j', _, rfl⟩ := hy
    exact Or.inl hii

/-- The best-update step of the reference search (state a `MatchBlock`). -/
def bestUpdM (f : Nat × Nat → Nat) (mk : Nat × Nat → Nat → MatchBlock)
    (st : MatchBlock) (p : Nat × Nat) : MatchBlock :=
  if st.size < f p then mk p (f p) else st

/-- Fold characterisation for the reference search, as for the scan. -/
theorem foldl_bestUpdM_spec (f : Nat × Nat → Nat) (mk : Nat × Nat → Nat → MatchBlock)
    (hmk : ∀ p k, (mk p k).size = k) :
    ∀ (l : List (Nat × Nat)) (st : MatchBlock), l.Pairwise lexLt →
      (List.foldl (bestUpdM f mk) st l = st ∧ ∀ p ∈ l, f p ≤ st.size) ∨
      (∃ p ∈ l, st.size < f p ∧
        List.foldl (bestUpdM f mk) st l = mk p (f p) ∧
        (∀ q ∈ l, f q ≤ f p) ∧ (∀ q ∈ l, lexLt q p → f q < f p)) := by
  intro l
  induction l with
  | nil => intro st _; exact Or.inl ⟨rfl, by simp⟩
  | cons h t ih =>
    intro st hsort
    have hsort' : t.Pairwise lexLt := hsort.of_cons
    have hhd : ∀ q ∈ t, lexLt h q := (List.pairwise_cons.mp hsort).1
    by_cases hcase : st.size < f h
    · have step : List.foldl (bestUpdM f mk) st (h :: t) =
          List.foldl (bestUpdM f mk) (mk h (f h)) t := by
        rw [List.foldl_cons]
        unfold bestUpdM
        rw [if_pos hcase]
      rcases ih (mk h (f h)) hsort' with ⟨heq, hall⟩ | ⟨p, hp, hlt, heq, hmax, hfirst⟩
      · refine Or.inr ⟨h, List.mem_cons_self _ _, hcase, by rw [step, heq], ?_, ?_⟩
        · intro q hq
          rcases List.mem_cons.mp hq with rfl | hq'
          · exact le_refl _
          · have := hall q hq'; rwa [hmk] at this
        · intro q hq hql
          rcases List.mem_cons.mp hq with rfl | hq'
          · exact absurd hql (lexLt_irrefl q)
          · exact absurd hql (lexLt_asymm (hhd q hq'))
      · rw [hmk] at hlt
        refine Or.inr ⟨p, List.mem_cons_of_mem _ hp, lt_trans hcase hlt,
          by rw [step, heq], ?_, ?_⟩
        · intro q hq
          rcases List.mem_cons.mp hq with rfl | hq'
          · exact le_of_lt hlt
          · exact hmax q hq'
        · intro q hq hql
          rcases List.mem_cons.mp hq with rfl | hq'
          · exact hlt
          · exact hfirst q hq' hql
    · have step : List.foldl (bestUpdM f mk) st (h :: t) =
          List.foldl (bestUpdM f mk) st t := by
        rw [List.foldl_cons]
        unfold bestUpdM
        rw [if_neg hcase]
      rcases ih st hsort' with ⟨heq, hall⟩ | ⟨p, hp, hlt, heq, hmax, hfirst⟩
      · refine Or.inl ⟨by rw [step, heq], ?_⟩
        intro q hq
        rcases List.mem_cons.mp hq with rfl | hq'
        · exact Nat.not_lt.mp hcase
        · exact hall q hq'
      · refine Or.inr ⟨p, List.mem_cons_of_mem _ hp, hlt, by rw [step, heq], ?_, ?_⟩
        · intro q hq
          rcases List.mem_cons.mp hq with rfl | hq'
          · exact le_trans (Nat.not_lt.mp hcase) (le_of_lt hlt)
          · exact hmax q hq'
        · intro q hq hql
          rcases List.mem_cons.mp hq with rfl | hq'
          · exact lt_of_le_of_lt (Nat.not_lt.mp hcase) hlt
          · exact hfirst q hq' hql

theorem specFLB_eq_foldl (a b : List α) (alo ahi blo bhi : Nat) :
    specFLB a b alo ahi blo bhi =
      List.foldl
        (bestUpdM (fun p => runLen a b ahi bhi p.1 p.2) (fun p k => ⟨p.1, p.2, k⟩))
        ⟨alo, blo, 0⟩ (rectPositions alo ahi blo bhi) := rfl

end C2Spec

section C2SpecCases

variable {α : Type} [DecidableEq α] [Inhabited α]

/-- The reference search either finds no block or returns the
lexicographically first start position of maximal run length. -/
theorem specFLB_cases (a b : List α) (alo ahi blo bhi : Nat) :
    (specFLB a b alo ahi blo bhi = (⟨alo, blo, 0⟩ : MatchBlock) ∧
      ∀ p ∈ rectPositions alo ahi blo bhi, runLen a b ahi bhi p.1 p.2 = 0) ∨
    (∃ q ∈ rectPositions alo ahi blo bhi,
      0 < runLen a b ahi bhi q.1 q.2 ∧
      specFLB a b alo ahi blo bhi = ⟨q.1, q.2, runLen a b ahi bhi q.1 q.2⟩ ∧
      (∀ p ∈ rectPositions alo ahi blo bhi,
        runLen a b ahi bhi p.1 p.2 ≤ runLen a b ahi bhi q.1 q.2) ∧
      (∀ p ∈ rectPositions alo ahi blo bhi, lexLt p q →
        runLen a b ahi bhi p.1 p.2 < runLen a b ahi bhi q.1 q.2)) := by
  rcases foldl_bestUpdM_spec (fun p => runLen a b ahi bhi p.1 p.2)
      (fun p k => ⟨p.1, p.2, k⟩) (fun p k => rfl)
      (rectPositions alo ahi blo bhi) ⟨alo, blo, 0⟩
      (rectPositions_sorted alo ahi blo bhi)
    with ⟨heq, hall⟩ | ⟨q, hq, hpos, heq, hmax, hfirst⟩
  · refine Or.inl ⟨by rw [specFLB_eq_foldl]; exact heq, ?_⟩
    intro p hp
    have h0 : runLen a b ahi bhi p.1 p.2 ≤ 0 := hall p hp
    omega
  · exact Or.inr ⟨q, hq, hpos, by rw [specFLB_eq_foldl]; exact heq, hmax, hfirst⟩

/-- A non-trivial reference block starts inside the window. -/
theorem specFLB_bounds (a b : List α) (alo ahi blo bhi : Nat)
    (h : (specFLB a b alo ahi blo bhi).size ≠ 0) :
    alo ≤ (specFLB a b alo ahi blo bhi).a ∧
    (specFLB a b alo ahi blo bhi).a < ahi ∧
    blo ≤ (specFLB a b alo ahi blo bhi).b ∧
    (specFLB a b alo ahi blo bhi).b < bhi := by
  rcases specFLB_cases a b alo ahi blo bhi with ⟨heq, _⟩ | ⟨q, hq, _, heq, _, _⟩
  · rw [heq] at h
    exact absurd rfl h
  · obtain ⟨h1, h2, h3, h4⟩ := mem_rectPositions.mp hq
    rw [heq]
    exact ⟨h1, h2, h3, h4⟩

/-- An empty window yields no reference blocks. -/
theorem specMBF_empty (a b : List α) :
    ∀ fuel alo ahi blo bhi, (ahi ≤ alo ∨ bhi ≤ blo) →
      specMBF a b fuel alo ahi blo bhi = [] := by
  intro fuel alo ahi blo bhi h
  cases fuel with
  | zero => rfl
  | succ fuel' =>
    have hrect : rectPositions alo ahi blo bhi = [] := by
      rw [List.eq_nil_iff_forall_not_mem]
      intro p hp
      obtain ⟨h1, h2, h3, h4⟩ := mem_rectPositions.mp hp
      omega
    have hflb : specFLB a b alo ahi blo bhi = (⟨alo, blo, 0⟩ : MatchBlock) := by
      rw [specFLB_eq_foldl, hrect]
      rfl
    rw [specMBF]
    simp only [hflb]
    rw [if_pos trivial]

/-- With autojunk idle (no popular element of `b`) and the window inside `b`,
`find_longest_match` returns exactly the reference longest block with the
smallest start in A, then in B. -/
theorem flm_eq_specFLB (a b : List α) (alo ahi blo bhi : Nat)
    (hnp : ∀ x ∈ b, isPopular b x = false) (hbl : bhi ≤ b.length) :
    find_longest_match a b alo ahi blo bhi = specFLB a b alo ahi blo bhi := by
  rcases foldl_bestUpd_spec (chainF a b alo blo bhi) mkEnd (fun p k => rfl)
      (scanPos a b alo ahi blo bhi) ⟨alo, blo, 0⟩ (scanPos_sorted a b alo ahi blo bhi)
    with ⟨heq, hallz⟩ | ⟨p, hp, hppos, heq, hmax, hfirst⟩
  · -- the scan found nothing: neither does the reference search
    have hallz' : ∀ r ∈ scanPos a b alo ahi blo bhi, chainF a b alo blo bhi r = 0 := by
      intro r hr
      have h0 : chainF a b alo blo bhi r ≤ 0 := hallz r hr
      omega
    have hrect0 : ∀ r ∈ rectPositions alo ahi blo bhi,
        runLen a b ahi bhi r.1 r.2 = 0 := by
      intro r hr
      by_contra hne
      have hrpos : 0 < runLen a b ahi bhi r.1 r.2 := Nat.pos_of_ne_zero hne
      obtain ⟨h1, h2, h3, h4⟩ := mem_rectPositions.mp hr
      have hch : runLen a b ahi bhi r.1 r.2 ≤
          chainLen a b alo blo bhi (r.1 + runLen a b ahi bhi r.1 r.2 - 1)
            (r.2 + runLen a b ahi bhi r.1 r.2 - 1) :=
        runLen_le_chain hnp hbl h1 h3 ahi
      have hrle : runLen a b ahi bhi r.1 r.2 ≤ ahi - r.1 := by
        unfold runLen
        exact runLenF_le a b bhi _ _ _
      have hcp : 0 < chainLen a b alo blo bhi (r.1 + runLen a b ahi bhi r.1 r.2 - 1)
          (r.2 + runLen a b ahi bhi r.1 r.2 - 1) := by omega
      have hmem : (r.1 + runLen a b ahi bhi r.1 r.2 - 1,
          r.2 + runLen a b ahi bhi r.1 r.2 - 1) ∈ scanPos a b alo ahi blo bhi :=
        mem_scanPos.mpr ⟨by omega, by omega, visitedB_of_chain_pos hcp⟩
      have hc0 : chainLen a b alo blo bhi (r.1 + runLen a b ahi bhi r.1 r.2 - 1)
          (r.2 + runLen a b ahi bhi r.1 r.2 - 1) = 0 := hallz' _ hmem
      omega
    rcases specFLB_cases a b alo ahi blo bhi with ⟨hseq, _⟩ |
        ⟨q, hq, hqpos, _, _, _⟩
    swap
    · exact absurd (hrect0 q hq) (by omega)
    have hback : extendBack a b alo blo alo blo 0 = (alo, blo, 0) :=
      extendBack_noop a b alo blo alo blo 0 (fun hcc => Nat.lt_irrefl _ hcc.1)
    have hfwd : extendFwd a b bhi alo blo (ahi - (alo + 0)) 0 = 0 := by
      rcases Nat.eq_zero_or_pos (ahi - (alo + 0)) with h0 | hgt
      · rw [h0]
        rfl
      · refine extendFwd_noop a b bhi alo blo _ 0 ?_
        rintro ⟨hc1, hc2⟩
        have hvis : visitedB a b blo bhi alo blo = true := by
          refine (visitedB_iff hnp hbl).mpr ⟨le_refl _, by omega, ?_⟩
          simpa using hc2.symm
        have hmem : (alo, blo) ∈ scanPos a b alo ahi blo bhi :=
          mem_scanPos.mpr ⟨le_refl _, by omega, hvis⟩
        have hc0 : chainLen a b alo blo bhi alo blo = 0 := hallz' _ hmem
        have hcp : 0 < chainLen a b alo blo bhi alo blo :=
          chainLen_pos_of_visited hvis
        omega
    have hm : find_longest_match a b alo ahi blo bhi =
        ⟨alo, blo, extendFwd a b bhi alo blo (ahi - (alo + 0)) 0⟩ := by
      unfold find_longest_match
      rw [scan_eq_foldl, heq]
      simp only [hback]
    rw [hm, hfwd, hseq]
  · -- the scan found the first maximal chain ending at p
    obtain ⟨hrlo, hrhi, hvis⟩ := mem_scanPos.mp hp
    obtain ⟨hpblo, hpbhi, _, _⟩ := visitedB_spec hvis
    simp only [chainF] at hppos heq hmax hfirst
    have hpc : 0 < chainLen a b alo blo bhi p.1 p.2 := hppos
    have hrow : alo + chainLen a b alo blo bhi p.1 p.2 ≤ p.1 + 1 :=
      chainLen_le_row p.1 p.2 hrlo
    have hcolm : chainLen a b alo blo bhi p.1 p.2 ≤ p.2 + 1 :=
      chainLen_le_colmax p.1 p.2
    have hcol : blo + chainLen a b alo blo bhi p.1 p.2 ≤ p.2 + 1 :=
      chainLen_le_col hpc
    have hsrun := chain_le_runLen hrlo ahi hrhi hpc
    have hsmem : (p.1 + 1 - chainLen a b alo blo bhi p.1 p.2,
        p.2 + 1 - chainLen a b alo blo bhi p.1 p.2) ∈ rectPositions alo ahi blo bhi :=
      mem_rectPositions.mpr ⟨by omega, by omega, by omega, by omega⟩
    rcases specFLB_cases a b alo ahi blo bhi with ⟨hseq, hrect0⟩ |
        ⟨q, hq, hqpos, hseq, hqmax, hqfirst⟩
    · exfalso
      have h0 := hrect0 _ hsmem
      dsimp only at h0
      omega
    · obtain ⟨hqlo1, hqhi1, hqlo2, hqhi2⟩ := mem_rectPositions.mp hq
      have hRle : runLen a b ahi bhi q.1 q.2 ≤ ahi - q.1 := by
        unfold runLen
        exact runLenF_le a b bhi _ _ _
      have hechain : runLen a b ahi bhi q.1 q.2 ≤
          chainLen a b alo blo bhi (q.1 + runLen a b ahi bhi q.1 q.2 - 1)
            (q.2 + runLen a b ahi bhi q.1 q.2 - 1) :=
        runLen_le_chain hnp hbl hqlo1 hqlo2 ahi
      have hecp : 0 < chainLen a b alo blo bhi (q.1 + runLen a b ahi bhi q.1 q.2 - 1)
          (q.2 + runLen a b ahi bhi q.1 q.2 - 1) := by omega
      have hemem : (q.1 + runLen a b ahi bhi q.1 q.2 - 1,
          q.2 + runLen a b ahi bhi q.1 q.2 - 1) ∈ scanPos a b alo ahi blo bhi :=
        mem_scanPos.mpr ⟨by omega, by omega, visitedB_of_chain_pos hecp⟩
      have h1 := hqmax _ hsmem
      dsimp only at h1
      have h2 := hmax _ hemem
      dsimp only at h2
      have hLR : chainLen a b alo blo bhi p.1 p.2 = runLen a b ahi bhi q.1 q.2 := by
        omega
      have hruns : runLen a b ahi bhi (p.1 + 1 - chainLen a b alo blo bhi p.1 p.2)
          (p.2 + 1 - chainLen a b alo blo bhi p.1 p.2) = runLen a b ahi bhi q.1 q.2 := by
        omega
      have hchaine : chainLen a b alo blo bhi
          (q.1 + runLen a b ahi bhi q.1 q.2 - 1)
          (q.2 + runLen a b ahi bhi q.1 q.2 - 1) =
          chainLen a b alo blo bhi p.1 p.2 := by
        omega
      have hqs : q.1 = p.1 + 1 - chainLen a b alo blo bhi p.1 p.2 ∧
          q.2 = p.2 + 1 - chainLen a b alo blo bhi p.1 p.2 := by
        rcases lexLt_trichotomy q (p.1 + 1 - chainLen a b alo blo bhi p.1 p.2,
            p.2 + 1 - chainLen a b alo blo bhi p.1 p.2) with hlt | heqq | hlt'
        · exfalso
          have hep : lexLt (q.1 + runLen a b ahi bhi q.1 q.2 - 1,
              q.2 + runLen a b ahi bhi q.1 q.2 - 1) p := by
            unfold lexLt at hlt ⊢
            dsimp only at hlt ⊢
            omega
          have h3 := hfirst _ hemem hep
          dsimp only at h3
          omega
        · exact ⟨by rw [heqq], by rw [heqq]⟩
        · exfalso
          have h3 := hqfirst _ hsmem hlt'
          dsimp only at h3
          omega
      have hback : extendBack a b alo blo
          (p.1 + 1 - chainLen a b alo blo bhi p.1 p.2)
          (p.2 + 1 - chainLen a b alo blo bhi p.1 p.2)
          (chainLen a b alo blo bhi p.1 p.2) =
          (p.1 + 1 - chainLen a b alo blo bhi p.1 p.2,
           p.2 + 1 - chainLen a b alo blo bhi p.1 p.2,
           chainLen a b alo blo bhi p.1 p.2) := by
        refine extendBack_noop a b alo blo _ _ _ ?_
        rintro ⟨hc1, hc2, hc3⟩
        rcases chainLen_break p.1 p.2 hrlo hpc with hbr | hbr | hbr
        · omega
        · omega
        · have hvt : visitedB a b blo bhi (p.1 - chainLen a b alo blo bhi p.1 p.2)
              (p.2 - chainLen a b alo blo bhi p.1 p.2) = true := by
            refine (visitedB_iff hnp hbl).mpr ⟨by omega, by omega, ?_⟩
            have e1 : p.1 - chainLen a b alo blo bhi p.1 p.2 =
                p.1 + 1 - chainLen a b alo blo bhi p.1 p.2 - 1 := by omega
            have e2 : p.2 - chainLen a b alo blo bhi p.1 p.2 =
                p.2 + 1 - chainLen a b alo blo bhi p.1 p.2 - 1 := by omega
            rw [e1, e2]
            exact hc3.symm
          rw [hvt] at hbr
          exact Bool.noConfusion hbr
      have hfwd : extendFwd a b bhi
          (p.1 + 1 - chainLen a b alo blo bhi p.1 p.2)
          (p.2 + 1 - chainLen a b alo blo bhi p.1 p.2)
          (ahi - (p.1 + 1 - chainLen a b alo blo bhi p.1 p.2 +
            chainLen a b alo blo bhi p.1 p.2))
          (chainLen a b alo blo bhi p.1 p.2) =
          chainLen a b alo blo bhi p.1 p.2 := by
        rcases Nat.eq_zero_or_pos (ahi - (p.1 + 1 - chainLen a b alo blo bhi p.1 p.2 +
            chainLen a b alo blo bhi p.1 p.2)) with h0 | hgt
        · rw [h0]
          rfl
        · refine extendFwd_noop a b bhi _ _ _ _ ?_
          rintro ⟨hc1, hc2⟩
          have e1 : p.1 + 1 - chainLen a b alo blo bhi p.1 p.2 +
              chainLen a b alo blo bhi p.1 p.2 = p.1 + 1 := by omega
          have e2 : p.2 + 1 - chainLen a b alo blo bhi p.1 p.2 +
              chainLen a b alo blo bhi p.1 p.2 = p.2 + 1 := by omega
          rw [e1, e2] at hc2
          rw [e2] at hc1
          have hvt : visitedB a b blo bhi (p.1 + 1) (p.2 + 1) = true :=
            (visitedB_iff hnp hbl).mpr ⟨by omega, hc1, hc2.symm⟩
          have hmem2 : (p.1 + 1, p.2 + 1) ∈ scanPos a b alo ahi blo bhi :=
            mem_scanPos.mpr ⟨by omega, by omega, hvt⟩
          have hstep : chainLen a b alo blo bhi (p.1 + 1) (p.2 + 1) =
              chainLen a b alo blo bhi p.1 p.2 + 1 := by
            rw [chainLen, if_pos hvt, if_neg (by omega)]
            rw [Nat.add_sub_cancel]
          have h3 := hmax _ hmem2
          dsimp only at h3
          omega
      have hm : find_longest_match a b alo ahi blo bhi =
          ⟨p.1 + 1 - chainLen a b alo blo bhi p.1 p.2,
           p.2 + 1 - chainLen a b alo blo bhi p.1 p.2,
           chainLen a b alo blo bhi p.1 p.2⟩ := by
        unfold find_longest_match
        rw [scan_eq_foldl, heq]
        simp only [mkEnd, hback]
        rw [hfwd]
      rw [hm, hseq]
      simp only [MatchBlock.mk.injEq]
      exact ⟨hqs.1.symm, hqs.2.symm, hLR⟩

section C2Main

variable {α : Type} [DecidableEq α] [Inhabited α]

theorem matchingBlocksF_succ (a b : List α) (fuel alo ahi blo bhi : Nat) :
    matchingBlocksF a b (fuel + 1) alo ahi blo bhi =
      if (find_longest_match a b alo ahi blo bhi).size = 0 then []
      else
        (if alo < (find_longest_match a b alo ahi blo bhi).a ∧
            blo < (find_longest_match a b alo ahi blo bhi).b then
          matchingBlocksF a b fuel alo (find_longest_match a b alo ahi blo bhi).a
            blo (find_longest_match a b alo ahi blo bhi).b
        else []) ++
        find_longest_match a b alo ahi blo bhi ::
        (if (find_longest_match a b alo ahi blo bhi).a +
              (find_longest_match a b alo ahi blo bhi).size < ahi ∧
            (find_longest_match a b alo ahi blo bhi).b +
              (find_longest_match a b alo ahi blo bhi).size < bhi then
          matchingBlocksF a b fuel
            ((find_longest_match a b alo ahi blo bhi).a +
              (find_longest_match a b alo ahi blo bhi).size) ahi
            ((find_longest_match a b alo ahi blo bhi).b +
              (find_longest_match a b alo ahi blo bhi).size) bhi
        else []) := rfl

theorem specMBF_succ (a b : List α) (fuel alo ahi blo bhi : Nat) :
    specMBF a b (fuel + 1) alo ahi blo bhi =
      if (specFLB a b alo ahi blo bhi).size = 0 then []
      else
        specMBF a b fuel alo (specFLB a b alo ahi blo bhi).a
          blo (specFLB a b alo ahi blo bhi).b ++
        specFLB a b alo ahi blo bhi ::
        specMBF a b fuel
          ((specFLB a b alo ahi blo bhi).a + (specFLB a b alo ahi blo bhi).size) ahi
          ((specFLB a b alo ahi blo bhi).b + (specFLB a b alo ahi blo bhi).size) bhi :=
  rfl

/-- With autojunk idle, the fuelled matcher recursion coincides with the
reference recursion at every fuel and window inside `b`. -/
theorem mbF_eq_specMBF (a b : List α)
    (hnp : ∀ x ∈ b, isPopular b x = false) :
    ∀ fuel alo ahi blo bhi, bhi ≤ b.length →
      matchingBlocksF a b fuel alo ahi blo bhi = specMBF a b fuel alo ahi blo bhi := by
  intro fuel
  induction fuel with
  | zero => intro alo ahi blo bhi _; rfl
  | succ fuel' ih =>
    intro alo ahi blo bhi hbl
    rw [matchingBlocksF_succ, specMBF_succ,
      flm_eq_specFLB a b alo ahi blo bhi hnp hbl]
    by_cases hsz : (specFLB a b alo ahi blo bhi).size = 0
    · rw [if_pos hsz, if_pos hsz]
    · rw [if_neg hsz, if_neg hsz]
      obtain ⟨hba, hba2, hbb, hbb2⟩ := specFLB_bounds a b alo ahi blo bhi hsz
      congr 1
      · by_cases hg : alo < (specFLB a b alo ahi blo bhi).a ∧
            blo < (specFLB a b alo ahi blo bhi).b
        · rw [if_pos hg]
          exact ih alo _ blo _ (by omega)
        · rw [if_neg hg]
          exact (specMBF_empty a b fuel' alo _ blo _ (by omega)).symm
      · congr 1
        by_cases hg : (specFLB a b alo ahi blo bhi).a +
              (specFLB a b alo ahi blo bhi).size < ahi ∧
            (specFLB a b alo ahi blo bhi).b +
              (specFLB a b alo ahi blo bhi).size < bhi
        · rw [if_pos hg]
          exact ih _ ahi _ bhi hbl
        · rw [if_neg hg]
          exact (specMBF_empty a b fuel' _ ahi _ bhi (by omega)).symm

end C2Main

/-! ## C2: claim, counterexample, and amended equivalence -/

/-- The counterexample inputs: `ceB` has 200 elements, and `120` occurs 4 times
in it — more than `200 // 100 + 1 = 3` — so autojunk purges `120` from `b2j`. -/
def ceA : List Nat := [121, 120, 120]

def ceB : List Nat :=
  [120, 120, 120, 120] ++ (List.range 195).map (fun n => 200 + n) ++ [121]

set_option maxRecDepth 4000 in
theorem ceRawBlocks : matchingBlocksRaw ceA ceB = [⟨0, 199, 1⟩] := by decide

theorem ceRunTwo : runLen ceA ceB 3 200 1 0 = 2 := by decide

/-- C2 counterexample: on `ceA`/`ceB` the matcher's autojunk purge hides the
common block `[120, 120]` and the raw matching blocks differ from the
reference Ratcliff/Obershelp recursion (which must find a block of length 2,
while the matcher's only block has length 1). -/
theorem claim_C2_counterexample :
    ¬ (matchingBlocksRaw ceA ceB = specMatchingBlocks ceA ceB) := by
  intro h
  rw [ceRawBlocks] at h
  have hspec : specMBF ceA ceB (3 + 1) 0 3 0 200 = [⟨0, 199, 1⟩] := h.symm
  rw [specMBF_succ] at hspec
  by_cases hz : (specFLB ceA ceB 0 3 0 200).size = 0
  · rw [if_pos hz] at hspec
    exact absurd hspec (by simp)
  · rw [if_neg hz] at hspec
    have hmem : specFLB ceA ceB 0 3 0 200 ∈ ([⟨0, 199, 1⟩] : List MatchBlock) := by
      rw [← hspec]
      exact List.mem_append_right _ (List.mem_cons_self _ _)
    have hm1 : specFLB ceA ceB 0 3 0 200 = ⟨0, 199, 1⟩ := by
      simpa using hmem
    rcases specFLB_cases ceA ceB 0 3 0 200 with ⟨hseq, _⟩ |
        ⟨q, hq, _, heq, hqmax, _⟩
    · rw [hseq] at hm1
      exact absurd hm1 (by decide)
    · have hmem10 : ((1, 0) : Nat × Nat) ∈ rectPositions 0 3 0 200 :=
        mem_rectPositions.mpr ⟨by decide, by decide, by decide, by decide⟩
      have h2 := hqmax (1, 0) hmem10
      dsimp only at h2
      have hsz1 : runLen ceA ceB 3 200 q.1 q.2 = 1 := by
        rw [heq] at hm1
        have h3 := congrArg MatchBlock.size hm1
        simpa using h3
      have hr2 : runLen ceA ceB 3 200 1 0 = 2 := ceRunTwo
      omega

/-- C2 (amended): when no element of B is purged by the autojunk heuristic —
in particular whenever `len(b) < 200` — the Sequence Aligner's raw matching
blocks equal the reference Ratcliff/Obershelp recursion: repeatedly take the
longest common block (smallest start in A, then in B, among maximal ones) and
recurse strictly before and strictly after it.  Refuted in general by
`claim_C2_counterexample`: autojunk changes the output once `len(b) ≥ 200`. -/
theorem claim_C2_ratcliff (a b : List Nat)
    (hnp : ∀ x ∈ b, isPopular b x = false) :
    matchingBlocksRaw a b = specMatchingBlocks a b :=
  mbF_eq_specMBF a b hnp (a.length + 1) 0 a.length 0 b.length (le_refl _)

theorem claim_C2_ratcliff_witness :
    (∀ x ∈ ([1, 9, 3] : List Nat), isPopular [1, 9, 3] x = false) ∧
    matchingBlocksRaw ([1, 2, 3] : List Nat) [1, 9, 3] =
      specMatchingBlocks ([1, 2, 3] : List Nat) [1, 9, 3] :=
  ⟨by decide, claim_C2_ratcliff [1, 2, 3] [1, 9, 3] (by decide)⟩
